import Mathlib

/-!
Verification development for the feature aggregation engine of
`hvc/features/extract.py` (class `FeatureExtractor`).

The per-file builder `FeatureExtractor._from_file` and the corpus
aggregator `FeatureExtractor.extract` are embedded shallowly below.
Machine floats are modelled by `ℚ`, with the distinguished missing
value (numpy's not-a-number used as a marker) modelled by `FVal.nan`;
numpy integer arrays by `List ℤ`; numpy 1-d/2-d float arrays by
`NDArr`, which records the number of dimensions because
`np.concatenate` inspects it.  Python exceptions are modelled with
`Except PyErr`; Python's "does this local exist yet" pattern
(`'x' in locals()`) is modelled with `Option`-valued state fields.

External collaborators (audio decoding, `make_syls` spectrogram
construction, and the individual feature compute functions from
`feature_dicts.py`, a module of this repository that is not part of
the sources under verification) are parameters, following the spec's
interface contracts: a feature is a named entry of one of the three
switch-case dicts, whose kind is single-segment, multi-segment or
neural-net (tensor) input.
-/

namespace HVC

/-- A feature-matrix cell: either numpy nan (the missing-value marker
left by the nan-initialisation in `_from_file`) or a number. -/
inductive FVal where
  | nan : FVal
  | num : ℚ → FVal
deriving DecidableEq, Repr

/-- A tensor produced by a neural-net input feature; only its leading
dimension (`.length`) and trailing-axis concatenation matter here. -/
abbrev Tensor := List (List ℚ)

/-- Raw audio samples, an opaque payload passed to collaborators. -/
abbrev Audio := List ℚ

/-- One syllable as produced by `make_syls`; `spect = none` models
`syl.spect is np.nan`, i.e. a spectrogram that could not be computed. -/
structure Syl where
  spect : Option (List (List ℚ))
deriving DecidableEq, Repr

instance : Inhabited Syl := ⟨⟨none⟩⟩

/-- Output of a single-segment feature's compute function for one
syllable: a numpy scalar or a 1-d vector (`np.isscalar` distinguishes
the two in `_from_file`). -/
inductive FtrOut where
  | scalar : ℚ → FtrOut
  | vec : List ℚ → FtrOut
deriving DecidableEq, Repr

/-- Shape of a compute output: `none` for a scalar, `some w` for a
width-`w` vector. -/
def ftrShape : FtrOut → Option ℕ
  | .scalar _ => none
  | .vec v => some v.length

/-- Number of feature-matrix columns one compute output occupies. -/
def ftrWidth : FtrOut → ℕ
  | .scalar _ => 1
  | .vec v => v.length

/-- The matrix cells of one compute output. -/
def fvals : FtrOut → List FVal
  | .scalar q => [FVal.num q]
  | .vec v => v.map FVal.num

/-- A numpy float array of dimension 1 or 2, as handled by
`_from_file`; 2-d arrays are stored row-major (rows = syllables). -/
inductive NDArr where
  | one : List FVal → NDArr
  | two : List (List FVal) → NDArr
deriving DecidableEq, Repr

/-- Python exceptions that the embedded code can raise. -/
inductive PyErr where
  | attributeError : PyErr
  | nameError : PyErr
  | valueError : PyErr
  | indexError : PyErr
  | assertionError : PyErr
  | keyError : PyErr
deriving DecidableEq, Repr

/-- The `labels` argument of `_from_file`: either a numpy array of
single-character labels, or a plain Python string (its characters). -/
inductive LabelsInput where
  | arr : List Char → LabelsInput
  | str : List Char → LabelsInput
deriving DecidableEq, Repr

/-- Modelled from the spec: the feature registry of
`feature_dicts.py` (not among the sources) maps a feature name to a
kind and compute function; membership of `current_feature` in
`single_syl_features_switch_case_dict`,
`multiple_syl_features_switch_case_dict` or
`neural_net_features_switch_case_dict` is modelled as this tag.
A multi-segment compute receives the unfiltered onsets, offsets and
the boolean label mask, exactly as called at line 586; a neural-net
compute receives raw audio, sample rate and the filtered labels,
onsets and offsets (the `spectrogram_maker` argument is absorbed
into the closure). -/
inductive FKind where
  | singleSyl : (Syl → FtrOut) → FKind
  | multiSyl : (List ℤ → List ℤ → List Bool → List ℚ) → FKind
  | neuralNet : (Audio → ℚ → List Char → List ℤ → List ℤ → Tensor) → FKind

/-- A named feature of `feature_list` together with its registry
entry. -/
structure Feature where
  name : String
  kind : FKind

/-- External collaborators: the audio decoder dispatched on the file
name, and `make_syls` composed with the `Spectrogram` maker. -/
structure Env where
  decode : String → Audio × ℚ
  mkSyls : Audio → ℚ → List Char → List ℤ → List ℤ → List Syl

/-- The per-file inputs shared by every feature computation inside
the feature loop of `_from_file`. -/
structure FParams where
  rawAudio : Audio
  sampFreq : ℚ
  mkSyls : Audio → ℚ → List Char → List ℤ → List ℤ → List Syl
  labelsArr : List Char
  onsetsHz : List ℤ
  offsetsHz : List ℤ
  mask : List Bool

/-- Boolean-mask indexing `xs[mask]` of numpy. -/
def maskFilter (mask : List Bool) (xs : List α) : List α :=
  ((mask.zip xs).filter (fun p => p.1)).map (fun p => p.2)

/-- Lines 486-490: the label mask.  With `labels_to_use == 'all'` the
mask is `np.ones(labels.shape)`, which needs `labels` to be an array
(a plain string has no `.shape`: `AttributeError`); otherwise the
mask is built by iterating the labels, which works for both. -/
def computeMask : LabelsInput → String → Except PyErr (List Bool)
  | .arr l, ltu =>
      if ltu = "all" then .ok (List.replicate l.length true)
      else .ok (l.map (fun c => decide (c ∈ ltu.toList)))
  | .str s, ltu =>
      if ltu = "all" then .error .attributeError
      else .ok (s.map (fun c => decide (c ∈ ltu.toList)))

/-- Lines 491-492: `labels` after the string-to-array conversion. -/
def labelsChars : LabelsInput → List Char
  | .arr l => l
  | .str s => s

/-- Lines 533-540: writing one syllable's compute output into the
per-feature accumulator.  A scalar into a 1-d array sets the cell; a
scalar into a 2-d array broadcasts over the row; a vector into a 1-d
array is `IndexError` (too many indices); a vector into a 2-d array
must match the row width or assignment raises `ValueError`. -/
def assignAt : NDArr → ℕ → FtrOut → Except PyErr NDArr
  | .one v, i, .scalar q => .ok (.one (v.set i (.num q)))
  | .one _, _, .vec _ => .error .indexError
  | .two m, i, .scalar q =>
      .ok (.two (m.set i (List.replicate (m.getD i []).length (.num q))))
  | .two m, i, .vec xs =>
      if (m.getD i []).length = xs.length then
        .ok (.two (m.set i (xs.map FVal.num)))
      else .error .valueError

/-- Lines 541-559: first write into a fresh accumulator, initialised
to all-nan of length `n` (the number of syllables) so that
unspectrogrammable syllables keep nan. -/
def initCurr (n i : ℕ) : FtrOut → NDArr
  | .scalar q => .one ((List.replicate n FVal.nan).set i (.num q))
  | .vec xs =>
      .two ((List.replicate n (List.replicate xs.length FVal.nan)).set i
        (xs.map FVal.num))

/-- Lines 526-559: the inner loop over syllables of one
single-segment feature.  `curr` is `curr_feature_arr` (deleted before
the loop), `ftr` is the Python local `ftr`, which survives from
earlier features of the same file. -/
def runSyls (c : Syl → FtrOut) (n : ℕ) :
    ℕ → List Syl → Option NDArr → Option FtrOut →
    Except PyErr (Option NDArr × Option FtrOut)
  | _, [], curr, ftr => .ok (curr, ftr)
  | i, syl :: rest, curr, ftr =>
      match syl.spect with
      | none => runSyls c n (i + 1) rest curr ftr
      | some _ =>
          let f := c syl
          match curr with
          | some a => do
              let a2 ← assignAt a i f
              runSyls c n (i + 1) rest (some a2) (some f)
          | none => runSyls c n (i + 1) rest (some (initCurr n i f)) (some f)

/-- Line 569: `curr_feature_arr[np.newaxis, :].T`, turning a 1-d
array into a column; applied to a 2-d array it yields a 3-d array
whose concatenation with the 2-d matrix fails (`ValueError`). -/
def toColumn : NDArr → Except PyErr NDArr
  | .one v => .ok (.two (v.map (fun x => [x])))
  | .two _ => .error .valueError

/-- `np.concatenate((a, b), axis=1)`: both arrays must be 2-d with
the same number of rows, else `ValueError`. -/
def concatAxis1 : NDArr → NDArr → Except PyErr NDArr
  | .two a, .two b =>
      if a.length = b.length then .ok (.two (List.zipWith (· ++ ·) a b))
      else .error .valueError
  | _, _ => .error .valueError

/-- `np.concatenate((a, b), axis=0)`: dimensions must agree, and for
2-d arrays the widths must match, else `ValueError`. -/
def concatAxis0 : NDArr → NDArr → Except PyErr NDArr
  | .one a, .one b => .ok (.one (a ++ b))
  | .two a, .two b =>
      if (a.headD []).length = (b.headD []).length then .ok (.two (a ++ b))
      else .error .valueError
  | _, _ => .error .valueError

/-- Row count of an array, `arr.shape[0]`. -/
def ndRows : NDArr → ℕ
  | .one v => v.length
  | .two m => m.length

/-- The Python locals of the feature loop of `_from_file` that
persist across iterations. -/
structure LoopState where
  featuresArr : Option NDArr
  featureInds : List ℕ
  nnDict : Option (List (String × Tensor))
  syls : Option (List Syl)
  sylsBuilds : ℕ
  ftr : Option FtrOut
  currFeatureArr : Option NDArr
deriving DecidableEq

/-- The loop state at line 512: no accumulator exists yet and
`feature_inds = []`.  `sylsBuilds` is a ghost counter of how many
times `make_syls` has been invoked. -/
def initLoopState : LoopState :=
  { featuresArr := none, featureInds := [], nnDict := none, syls := none
    sylsBuilds := 0, ftr := none, currFeatureArr := none }

/-- Lines 561-583: after the syllable loop of a single-segment
feature, extend `feature_inds` by the feature's width (taken from the
last computed `ftr`) and append `curr_feature_arr` to `features_arr`.
Reading `ftr` or `curr_feature_arr` when it was never assigned is
`NameError`. -/
def postSingle (ftrInd : ℕ) (st : LoopState) : Except PyErr LoopState :=
  match st.featuresArr with
  | some fa =>
      match st.ftr with
      | none => .error .nameError
      | some (.scalar _) =>
          match st.currFeatureArr with
          | none => .error .nameError
          | some cfa => do
              let col ← toColumn cfa
              let fa2 ← concatAxis1 fa col
              .ok { st with featureInds := st.featureInds ++ [ftrInd],
                            featuresArr := some fa2 }
      | some (.vec xs) =>
          match st.currFeatureArr with
          | none => .error .nameError
          | some cfa => do
              let fa2 ← concatAxis1 fa cfa
              .ok { st with
                      featureInds :=
                        st.featureInds ++ List.replicate xs.length ftrInd,
                      featuresArr := some fa2 }
  | none =>
      match st.ftr with
      | none => .error .nameError
      | some f =>
          match st.currFeatureArr with
          | none => .error .nameError
          | some cfa =>
              .ok { st with
                      featureInds :=
                        st.featureInds ++ List.replicate (ftrWidth f) ftrInd,
                      featuresArr := some cfa }

/-- The filtered labels `labels[use_these_labels_bool]` etc. used by
`make_syls` and the neural-net compute calls. -/
def sylsOf (P : FParams) : List Syl :=
  P.mkSyls P.rawAudio P.sampFreq (maskFilter P.mask P.labelsArr)
    (maskFilter P.mask P.onsetsHz) (maskFilter P.mask P.offsetsHz)

/-- Keys of the (optional) neural-net inputs dict. -/
def nnKeys (d : Option (List (String × Tensor))) : List String :=
  (d.getD []).map (fun p => p.1)

/-- `np.concatenate((a, b), axis=-1)` for tensors: leading dimensions
must agree. -/
def trailingConcat (a b : Tensor) : Except PyErr Tensor :=
  if a.length = b.length then .ok (List.zipWith (· ++ ·) a b)
  else .error .valueError

/-- Replace the value stored under a key of an association list. -/
def setVal (l : List (String × Tensor)) (name : String) (t : Tensor) :
    List (String × Tensor) :=
  l.map (fun p => if p.1 = name then (p.1, t) else p)

/-- Lines 606-616: insert a neural-net feature's output under its
name; a recurring name concatenates along the trailing axis. -/
def nnUpdate (d : Option (List (String × Tensor))) (name : String)
    (t : Tensor) : Except PyErr (List (String × Tensor)) :=
  match d with
  | none => .ok [(name, t)]
  | some l =>
      match l.lookup name with
      | some t0 => do
          let t2 ← trailingConcat t0 t
          .ok (setVal l name t2)
      | none => .ok (l ++ [(name, t)])

/-- Lines 512-616: the body of the feature loop for one entry of
`feature_list` (at position `ftrInd`), dispatching on which
switch-case dict contains the feature. -/
def featureStep (P : FParams) (ftrInd : ℕ) (f : Feature)
    (st : LoopState) : Except PyErr LoopState :=
  match f.kind with
  | .singleSyl c =>
      let p : List Syl × LoopState :=
        match st.syls with
        | some s => (s, st)
        | none =>
            (sylsOf P,
             { st with syls := some (sylsOf P),
                       sylsBuilds := st.sylsBuilds + 1 })
      let st2 := { p.2 with currFeatureArr := none }
      match runSyls c p.1.length 0 p.1 none st2.ftr with
      | .error e => .error e
      | .ok (curr, ftrNew) =>
          postSingle ftrInd { st2 with currFeatureArr := curr, ftr := ftrNew }
  | .multiSyl c =>
      let v := c P.onsetsHz P.offsetsHz P.mask
      let col : NDArr := .two (v.map (fun q => [FVal.num q]))
      let st2 := { st with currFeatureArr := some (.one (v.map FVal.num)),
                           featureInds := st.featureInds ++ [ftrInd] }
      match st2.featuresArr with
      | some fa =>
          match concatAxis1 fa col with
          | .error e => .error e
          | .ok fa2 => .ok { st2 with featuresArr := some fa2 }
      | none => .ok { st2 with featuresArr := some col }
  | .neuralNet c =>
      let t := c P.rawAudio P.sampFreq (maskFilter P.mask P.labelsArr)
        (maskFilter P.mask P.onsetsHz) (maskFilter P.mask P.offsetsHz)
      match nnUpdate st.nnDict f.name t with
      | .error e => .error e
      | .ok d => .ok { st with nnDict := some d }

/-- The feature loop, threading the `enumerate` index. -/
def runFeatures (P : FParams) : ℕ → LoopState → List Feature →
    Except PyErr LoopState
  | _, st, [] => .ok st
  | i, st, f :: fs => do
      let st2 ← featureStep P i f st
      runFeatures P (i + 1) st2 fs

/-- The dict returned by `_from_file` (lines 618-628). -/
structure ExtractDict where
  labels : List Char
  onsetsHz : List ℤ
  offsetsHz : List ℤ
  features : Option (NDArr × List ℕ)
  nn : Option (List (String × Tensor))
  sampFreq : ℚ
deriving DecidableEq

/-- Result of `_from_file`: `dict = none` is the no-match sentinel
(`return None` at line 498), and `warned` records whether the
warning-level condition of lines 495-497 was reported. -/
structure FromFileOut where
  warned : Bool
  dict : Option ExtractDict
deriving DecidableEq

/-- The shared per-file inputs as assembled by `_from_file` for a
given file and label mask. -/
def paramsOf (env : Env) (filename : String) (labels : LabelsInput)
    (onsetsHz offsetsHz : List ℤ) (mask : List Bool) : FParams :=
  { rawAudio := (env.decode filename).1
    sampFreq := (env.decode filename).2
    mkSyls := env.mkSyls
    labelsArr := labelsChars labels
    onsetsHz := onsetsHz
    offsetsHz := offsetsHz
    mask := mask }

/-- `FeatureExtractor._from_file` (lines 418-628): decode the file,
build the label mask, return the no-match sentinel when nothing
matches, otherwise run the feature loop and package the dict. -/
def fromFile (env : Env) (filename : String) (labels : LabelsInput)
    (onsetsHz offsetsHz : List ℤ) (labelsToUse : String)
    (featureList : List Feature) : Except PyErr FromFileOut := do
  let mask ← computeMask labels labelsToUse
  if mask.any id then do
    let st ← runFeatures (paramsOf env filename labels onsetsHz offsetsHz mask)
      0 initLoopState featureList
    .ok { warned := false
          dict := some
            { labels := maskFilter mask (labelsChars labels)
              onsetsHz := maskFilter mask onsetsHz
              offsetsHz := maskFilter mask offsetsHz
              features := st.featuresArr.map (fun fa => (fa, st.featureInds))
              nn := st.nnDict
              sampFreq := (env.decode filename).2 } }
  else
    .ok { warned := true, dict := none }

/-- One entry of `annotation_list`: a file with its segments. -/
structure Annot where
  filename : String
  labels : LabelsInput
  onsetsHz : List ℤ
  offsetsHz : List ℤ

/-- The Python locals of the per-file loop of
`FeatureExtractor.extract` (lines 288-294) that accumulate across
files. -/
structure AggState where
  allLabels : List Char
  allOnsetsHz : List ℤ
  allOffsetsHz : List ℤ
  allSampfreqs : List ℚ
  songfiles : List String
  songfileIDs : List ℕ
  counter : ℕ
  featureInds : Option (List ℕ)
  featuresAll : Option NDArr
  nnAll : Option (List (String × List Tensor))
deriving DecidableEq

/-- The aggregation state before any file is processed. -/
def initAggState : AggState :=
  { allLabels := [], allOnsetsHz := [], allOffsetsHz := []
    allSampfreqs := [], songfiles := [], songfileIDs := [], counter := 0
    featureInds := none, featuresAll := none, nnAll := none }

/-- Lines 333-340: append this file's tensor to the per-name lists;
a name already being accumulated but missing from this file's dict is
`KeyError`, and names of this file not yet accumulated are dropped. -/
def nnAppendAll (acc : List (String × List Tensor))
    (d : List (String × Tensor)) :
    Except PyErr (List (String × List Tensor)) :=
  acc.mapM (fun p =>
    match d.lookup p.1 with
    | some t => .ok (p.1, p.2 ++ [t])
    | none => .error .keyError)

/-- Lines 295-340: processing of one file inside
`FeatureExtractor.extract`: call `_from_file`, skip the file on the
no-match sentinel, check the column map against the reference
(`assert np.array_equal(...)` at line 314), then accumulate labels,
onsets, offsets, sample rate, file name, per-row file identifiers,
the feature matrix and the tensor dict. -/
def fileStep (env : Env) (labelsToUse : String)
    (featureList : List Feature) (st : AggState) (a : Annot) :
    Except PyErr AggState := do
  let r ← fromFile env a.filename a.labels a.onsetsHz a.offsetsHz
    labelsToUse featureList
  match r.dict with
  | none => .ok st
  | some d => do
      let st ←
        match d.features with
        | some fi =>
            match st.featureInds with
            | none => .ok { st with featureInds := some fi.2 }
            | some ref =>
                if fi.2 = ref then .ok st else .error .assertionError
        | none => .ok st
      let st :=
        { st with
            allLabels := st.allLabels ++ d.labels
            allOnsetsHz := st.allOnsetsHz ++ d.onsetsHz
            allOffsetsHz := st.allOffsetsHz ++ d.offsetsHz
            allSampfreqs := st.allSampfreqs ++ [d.sampFreq]
            songfiles := st.songfiles ++ [a.filename]
            songfileIDs :=
              st.songfileIDs ++ List.replicate d.onsetsHz.length st.counter
            counter := st.counter + 1 }
      let st ←
        match d.features with
        | some fi =>
            match st.featuresAll with
            | some acc => do
                let acc2 ← concatAxis0 acc fi.1
                .ok { st with featuresAll := some acc2 }
            | none => .ok { st with featuresAll := some fi.1 }
        | none => .ok st
      let st ←
        match d.nn with
        | some dd =>
            match st.nnAll with
            | some acc => do
                let acc2 ← nnAppendAll acc dd
                .ok { st with nnAll := some acc2 }
            | none =>
                .ok { st with nnAll := some (dd.map (fun p => (p.1, [p.2]))) }
        | none => .ok st
      .ok st

/-- The per-file loop of `extract`. -/
def runFiles (env : Env) (labelsToUse : String)
    (featureList : List Feature) :
    AggState → List Annot → Except PyErr AggState
  | st, [] => .ok st
  | st, a :: rest => do
      let st2 ← fileStep env labelsToUse featureList st a
      runFiles env labelsToUse featureList st2 rest

/-- Lines 361-404: sample-count derivation for the packaged result.
If a scalar feature matrix exists its row count is the sample count;
otherwise, if the tensor dict exists, a single name yields that
tensor's leading dimension and anything else raises `ValueError`
(lines 391-404 recompute the same value a second time without
changing it).  With neither present no sample count is recorded. -/
def deriveNumSamples (features : Option NDArr)
    (nn : Option (List (String × Tensor))) : Except PyErr (Option ℕ) :=
  match features with
  | some fa => .ok (some (ndRows fa))
  | none =>
      match nn with
      | some [p] => .ok (some p.2.length)
      | some _ => .error .valueError
      | none => .ok none

/-- The summary record built by `extract` (lines 342-408), restricted
to the aggregation fields the spec covers. -/
structure Summary where
  labels : List Char
  onsetsHz : List ℤ
  offsetsHz : List ℤ
  sampfreqs : List ℚ
  songfiles : List String
  songfileIDs : List ℕ
  features : Option NDArr
  featureIndsRef : Option (List ℕ)
  nn : Option (List (String × Tensor))
  numSamples : Option ℕ
deriving DecidableEq

/-- `FeatureExtractor.extract` (lines 287-416): iterate the files,
concatenate the per-name tensor lists along the sample axis
(lines 371-374) and derive the sample count. -/
def extract (env : Env) (labelsToUse : String)
    (featureList : List Feature) (annots : List Annot) :
    Except PyErr Summary := do
  let st ← runFiles env labelsToUse featureList initAggState annots
  let nn := st.nnAll.map (fun l => l.map (fun p => (p.1, p.2.flatten)))
  let ns ← deriveNumSamples st.featuresAll nn
  .ok { labels := st.allLabels, onsetsHz := st.allOnsetsHz
        offsetsHz := st.allOffsetsHz, sampfreqs := st.allSampfreqs
        songfiles := st.songfiles, songfileIDs := st.songfileIDs
        features := st.featuresAll, featureIndsRef := st.featureInds
        nn := nn, numSamples := ns }

/-! ## Specification-side descriptions of the feature loop

The following definitions describe, per feature and per syllable, the
cells the loop is expected to produce; the decomposition theorems
below relate `runFeatures` to them. -/

/-- Whether a feature is in the single-segment dict. -/
def isSingleF (f : Feature) : Bool :=
  match f.kind with
  | .singleSyl _ => true
  | _ => false

/-- Whether a feature is in the multi-segment dict. -/
def isMultiF (f : Feature) : Bool :=
  match f.kind with
  | .multiSyl _ => true
  | _ => false

/-- Whether a feature is in the neural-net dict. -/
def isNNF (f : Feature) : Bool :=
  match f.kind with
  | .neuralNet _ => true
  | _ => false

/-- Whether a feature contributes columns to the scalar matrix. -/
def isMatrixF (f : Feature) : Bool := isSingleF f || isMultiF f

/-- The number of feature-matrix columns a feature contributes: one
for a scalar feature, the vector width for a vector feature, none for
a neural-net feature. -/
def pieceW (f : Feature) : ℕ :=
  match f.kind with
  | .singleSyl c => ftrWidth (c default)
  | .multiSyl _ => 1
  | .neuralNet _ => 0

/-- The cells a feature contributes to row `i` of the feature matrix:
computed from that feature's own compute function and the shared
per-file inputs only. -/
def rowPiece (P : FParams) (syls : List Syl) (i : ℕ) (f : Feature) :
    List FVal :=
  match f.kind with
  | .singleSyl c =>
      match (syls.getD i default).spect with
      | none => List.replicate (ftrWidth (c default)) FVal.nan
      | some _ => fvals (c (syls.getD i default))
  | .multiSyl c => [FVal.num ((c P.onsetsHz P.offsetsHz P.mask).getD i 0)]
  | .neuralNet _ => []

/-- The expected column-to-feature-index map from list position `k`
on: each feature contributes `pieceW` copies of its position. -/
def indsFrom : ℕ → List Feature → List ℕ
  | _, [] => []
  | k, f :: fs => List.replicate (pieceW f) k ++ indsFrom (k + 1) fs

/-- A compute function with a consistent output shape across
syllables (scalar everywhere, or a fixed-width vector everywhere). -/
def ShapeOK (c : Syl → FtrOut) : Prop :=
  ∀ s, ftrShape (c s) = ftrShape (c default)

/-- Well-formedness of one feature: single-segment computes have a
consistent shape, and multi-segment computes return one value per
retained segment (`n` values), as the spec requires of the external
compute functions. -/
def GoodF (P : FParams) (n : ℕ) (f : Feature) : Prop :=
  match f.kind with
  | .singleSyl c => ShapeOK c
  | .multiSyl c => (c P.onsetsHz P.offsetsHz P.mask).length = n
  | .neuralNet _ => True

/-- Names of the neural-net features of a list. -/
def nnNames (fs : List Feature) : List String :=
  (fs.filter isNNF).map Feature.name

/-- The first matrix-contributing feature of the list, if any, is a
multi-segment feature or a vector-valued single-segment feature.
A scalar single-segment feature processed first leaves `features_arr`
1-dimensional, after which any further `np.concatenate(..., axis=1)`
raises `ValueError` (see the C1 analysis). -/
def FirstMatrixOk : List Feature → Prop
  | [] => True
  | f :: fs =>
      match f.kind with
      | .neuralNet _ => FirstMatrixOk fs
      | .multiSyl _ => True
      | .singleSyl c => (ftrShape (c default)).isSome = true

/-- The cell a scalar single-segment feature records for one
syllable: its value, or nan when the spectrogram is missing. -/
def scalarCell (c : Syl → FtrOut) (s : Syl) : FVal :=
  match s.spect with
  | none => FVal.nan
  | some _ =>
      match c s with
      | .scalar q => FVal.num q
      | .vec _ => FVal.nan

/-- The 1-d accumulator a scalar single-segment feature ends with. -/
def scalarCol (c : Syl → FtrOut) (syls : List Syl) : List FVal :=
  syls.map (scalarCell c)

/-- The row a width-`w` vector single-segment feature records for one
syllable. -/
def vecRow (c : Syl → FtrOut) (w : ℕ) (s : Syl) : List FVal :=
  match s.spect with
  | none => List.replicate w FVal.nan
  | some _ => fvals (c s)

/-- The 2-d accumulator a vector single-segment feature ends with. -/
def vecRows (c : Syl → FtrOut) (w : ℕ) (syls : List Syl) :
    List (List FVal) :=
  syls.map (vecRow c w)

/-- The value of the Python local `ftr` after the syllable loop:
the compute output of the last syllable with a spectrogram, or the
prior value if no syllable had one. -/
def lastFtr (c : Syl → FtrOut) : Option FtrOut → List Syl → Option FtrOut
  | f0, [] => f0
  | f0, s :: rest =>
      match s.spect with
      | none => lastFtr c f0 rest
      | some _ => lastFtr c (some (c s)) rest

/-- The expected `syls` local after processing a list of features,
given its value before and whether the list mentions a
single-segment feature. -/
def sylsAfter (P : FParams) (s0 : Option (List Syl)) (b : Bool) :
    Option (List Syl) :=
  match s0 with
  | some s => some s
  | none => if b then some (sylsOf P) else none

/-- The expected `make_syls` invocation count after processing a list
of features. -/
def buildsAfter (s0 : Option (List Syl)) (k : ℕ) (b : Bool) : ℕ :=
  match s0 with
  | some _ => k
  | none => if b then k + 1 else k

/-! ## List helpers -/

theorem set_append_len (l : List α) (y x : α) (t : List α) :
    (l ++ y :: t).set l.length x = l ++ x :: t := by
  induction l with
  | nil => rfl
  | cons a as ih =>
      simp only [List.cons_append, List.length_cons, List.set_cons_succ]
      rw [ih]

theorem getD_append_len (l : List α) (y : α) (t : List α) (d : α) :
    (l ++ y :: t).getD l.length d = y := by
  induction l with
  | nil => rfl
  | cons a as ih =>
      simp only [List.cons_append, List.length_cons, List.getD_cons_succ]
      exact ih

theorem getD_zipWith (f : α → β → γ) (da : α) (db : β) (d : γ) :
    ∀ (a : List α) (b : List β) (i : ℕ), i < a.length → i < b.length →
      (List.zipWith f a b).getD i d = f (a.getD i da) (b.getD i db)
  | _ :: _, _ :: _, 0, _, _ => rfl
  | x :: xs, y :: ys, i + 1, ha, hb =>
      getD_zipWith f da db d xs ys i (by simpa using ha) (by simpa using hb)

theorem getD_map_of_lt (f : α → β) (d : β) (d0 : α) :
    ∀ (l : List α) (i : ℕ), i < l.length →
      (l.map f).getD i d = f (l.getD i d0)
  | _ :: _, 0, _ => rfl
  | x :: xs, i + 1, h =>
      getD_map_of_lt f d d0 xs i (by simpa using h)

@[simp]
theorem except_bind_ok (a : α) (f : α → Except ε β) :
    ((Except.ok a : Except ε α) >>= f) = f a := rfl

@[simp]
theorem except_bind_err (e : ε) (f : α → Except ε β) :
    ((Except.error e : Except ε α) >>= f) = .error e := rfl

theorem lookup_none_of_not_mem (nm : String)
    (l : List (String × Tensor)) (h : nm ∉ l.map Prod.fst) :
    l.lookup nm = none := by
  induction l with
  | nil => rfl
  | cons p ps ih =>
      simp only [List.map_cons, List.mem_cons] at h
      push_neg at h
      have hb : (nm == p.1) = false := beq_eq_false_iff_ne.mpr h.1
      simp [List.lookup, hb, ih h.2]

/-! ## Characterisation of the inner syllable loop -/

theorem shape_scalar_or_vec (c : Syl → FtrOut) (h : ShapeOK c) :
    (∀ s, ∃ q, c s = .scalar q) ∨
      ∃ w, ∀ s, ∃ v, c s = .vec v ∧ v.length = w := by
  cases h0 : ftrShape (c default) with
  | none =>
      left
      intro s
      have := h s
      rw [h0] at this
      cases hcs : c s with
      | scalar q => exact ⟨q, rfl⟩
      | vec v => rw [hcs] at this; simp [ftrShape] at this
  | some w =>
      right
      refine ⟨w, fun s => ?_⟩
      have := h s
      rw [h0] at this
      cases hcs : c s with
      | scalar q => rw [hcs] at this; simp [ftrShape] at this
      | vec v =>
          rw [hcs] at this
          simp only [ftrShape, Option.some.injEq] at this
          exact ⟨v, rfl, this⟩

theorem runSyls_all_nan (c : Syl → FtrOut) (n : ℕ) :
    ∀ (ss : List Syl) (i : ℕ) (curr : Option NDArr) (f0 : Option FtrOut),
      (∀ s ∈ ss, s.spect = none) →
      runSyls c n i ss curr f0 = .ok (curr, f0) := by
  intro ss
  induction ss with
  | nil => intro i curr f0 _; rfl
  | cons s rest ih =>
      intro i curr f0 h
      have hs := h s (List.mem_cons_self ..)
      simp only [runSyls, hs]
      exact ih _ _ _ fun t ht => h t (List.mem_cons_of_mem _ ht)

theorem lastFtr_all_nan (c : Syl → FtrOut) :
    ∀ (ss : List Syl) (f0 : Option FtrOut),
      (∀ s ∈ ss, s.spect = none) → lastFtr c f0 ss = f0 := by
  intro ss
  induction ss with
  | nil => intro f0 _; rfl
  | cons s rest ih =>
      intro f0 h
      have hs := h s (List.mem_cons_self ..)
      simp only [lastFtr, hs]
      exact ih _ fun t ht => h t (List.mem_cons_of_mem _ ht)

theorem lastFtr_of_exists (c : Syl → FtrOut) :
    ∀ (ss : List Syl) (f0 : Option FtrOut),
      (∃ s ∈ ss, s.spect ≠ none) →
      ∃ s, s ∈ ss ∧ s.spect ≠ none ∧ lastFtr c f0 ss = some (c s) := by
  intro ss
  induction ss with
  | nil => intro f0 h; simp at h
  | cons s rest ih =>
      intro f0 h
      cases hs : s.spect with
      | some sp =>
          by_cases hr : ∃ t ∈ rest, t.spect ≠ none
          · obtain ⟨t, ht, hts, hlast⟩ := ih (some (c s)) hr
            exact ⟨t, List.mem_cons_of_mem _ ht, hts, by
              simp only [lastFtr, hs]; exact hlast⟩
          · have hall : ∀ t ∈ rest, t.spect = none := by
              intro t ht
              by_contra hne
              exact hr ⟨t, ht, hne⟩
            refine ⟨s, List.mem_cons_self .., by simp [hs], ?_⟩
            simp only [lastFtr, hs]
            exact lastFtr_all_nan c rest (some (c s)) hall
      | none =>
          have hr : ∃ t ∈ rest, t.spect ≠ none := by
            rcases h with ⟨t, ht, hts⟩
            rcases List.mem_cons.mp ht with rfl | htr
            · exact absurd hs hts
            · exact ⟨t, htr, hts⟩
          obtain ⟨t, ht, hts, hlast⟩ := ih f0 hr
          exact ⟨t, List.mem_cons_of_mem _ ht, hts, by
            simp only [lastFtr, hs]; exact hlast⟩

theorem runSyls_one_acc (c : Syl → FtrOut) (n : ℕ)
    (hc : ∀ s, ∃ q, c s = .scalar q) :
    ∀ (ss : List Syl) (acc : List FVal) (f0 : Option FtrOut),
      runSyls c n acc.length ss
          (some (.one (acc ++ List.replicate ss.length FVal.nan))) f0
        = .ok (some (.one (acc ++ scalarCol c ss)), lastFtr c f0 ss) := by
  intro ss
  induction ss with
  | nil => intro acc f0; simp [runSyls, scalarCol, lastFtr]
  | cons s rest ih =>
      intro acc f0
      cases hs : s.spect with
      | none =>
          rw [show acc ++ List.replicate (s :: rest).length FVal.nan
              = (acc ++ [FVal.nan]) ++ List.replicate rest.length FVal.nan
            from by simp [List.replicate_succ]]
          simp only [runSyls, hs]
          rw [show acc.length + 1 = (acc ++ [FVal.nan]).length from by simp,
            ih (acc ++ [FVal.nan]) f0]
          simp [scalarCol, scalarCell, hs, lastFtr]
      | some sp =>
          obtain ⟨q, hq⟩ := hc s
          rw [show acc ++ List.replicate (s :: rest).length FVal.nan
              = acc ++ FVal.nan :: List.replicate rest.length FVal.nan
            from by simp [List.replicate_succ]]
          simp only [runSyls, hs, hq, assignAt, except_bind_ok,
            set_append_len]
          rw [show acc ++ FVal.num q :: List.replicate rest.length FVal.nan
              = (acc ++ [FVal.num q]) ++ List.replicate rest.length FVal.nan
            from by simp,
            show acc.length + 1 = (acc ++ [FVal.num q]).length from by simp,
            ih (acc ++ [FVal.num q]) (some (.scalar q))]
          simp [scalarCol, scalarCell, hs, hq, lastFtr]

theorem runSyls_one_start (c : Syl → FtrOut) (n : ℕ)
    (hc : ∀ s, ∃ q, c s = .scalar q) :
    ∀ (ss : List Syl) (i : ℕ) (f0 : Option FtrOut),
      n = i + ss.length → (∃ s ∈ ss, s.spect ≠ none) →
      runSyls c n i ss none f0
        = .ok (some (.one (List.replicate i FVal.nan ++ scalarCol c ss)),
               lastFtr c f0 ss) := by
  intro ss
  induction ss with
  | nil => intro i f0 _ h; simp at h
  | cons s rest ih =>
      intro i f0 hn h
      cases hs : s.spect with
      | none =>
          have hr : ∃ t ∈ rest, t.spect ≠ none := by
            rcases h with ⟨t, ht, hts⟩
            rcases List.mem_cons.mp ht with rfl | htr
            · exact absurd hs hts
            · exact ⟨t, htr, hts⟩
          simp only [runSyls, hs]
          rw [ih (i + 1) f0 (by simp only [List.length_cons] at hn; omega) hr]
          have : List.replicate (i + 1) FVal.nan
              = List.replicate i FVal.nan ++ [FVal.nan] :=
            List.replicate_succ' ..
          simp [this, lastFtr, hs, scalarCol, scalarCell]
      | some sp =>
          obtain ⟨q, hq⟩ := hc s
          have hrep : List.replicate n FVal.nan
              = List.replicate i FVal.nan
                ++ FVal.nan :: List.replicate rest.length FVal.nan := by
            rw [hn]
            simp [List.replicate_add, List.replicate_succ]
          have hset : (List.replicate n FVal.nan).set i (FVal.num q)
              = (List.replicate i FVal.nan ++ [FVal.num q])
                ++ List.replicate rest.length FVal.nan := by
            rw [hrep]
            have := set_append_len (List.replicate i FVal.nan) FVal.nan
              (FVal.num q) (List.replicate rest.length FVal.nan)
            simp only [List.length_replicate] at this
            rw [this, List.append_cons]
          simp only [runSyls, hs, hq, initCurr, hset]
          rw [show i + 1
              = (List.replicate i FVal.nan ++ [FVal.num q]).length from by simp,
            runSyls_one_acc c n hc rest _ (some (.scalar q))]
          simp [scalarCol, scalarCell, hs, hq, lastFtr]

theorem runSyls_two_acc (c : Syl → FtrOut) (n w : ℕ)
    (hc : ∀ s, ∃ v, c s = .vec v ∧ v.length = w) :
    ∀ (ss : List Syl) (acc : List (List FVal)) (f0 : Option FtrOut),
      runSyls c n acc.length ss
          (some (.two (acc
            ++ List.replicate ss.length (List.replicate w FVal.nan)))) f0
        = .ok (some (.two (acc ++ vecRows c w ss)), lastFtr c f0 ss) := by
  intro ss
  induction ss with
  | nil => intro acc f0; simp [runSyls, vecRows, lastFtr]
  | cons s rest ih =>
      intro acc f0
      cases hs : s.spect with
      | none =>
          rw [show acc
                ++ List.replicate (s :: rest).length (List.replicate w FVal.nan)
              = (acc ++ [List.replicate w FVal.nan])
                ++ List.replicate rest.length (List.replicate w FVal.nan)
            from by simp [List.replicate_succ]]
          simp only [runSyls, hs]
          rw [show acc.length + 1
              = (acc ++ [List.replicate w FVal.nan]).length from by simp,
            ih (acc ++ [List.replicate w FVal.nan]) f0]
          simp [vecRows, vecRow, hs, lastFtr]
      | some sp =>
          obtain ⟨v, hv, hw⟩ := hc s
          rw [show acc
                ++ List.replicate (s :: rest).length (List.replicate w FVal.nan)
              = acc ++ List.replicate w FVal.nan
                :: List.replicate rest.length (List.replicate w FVal.nan)
            from by simp [List.replicate_succ]]
          simp only [runSyls, hs, hv, assignAt, getD_append_len,
            List.length_replicate, hw, if_true, except_bind_ok,
            set_append_len]
          rw [show acc ++ v.map FVal.num
                :: List.replicate rest.length (List.replicate w FVal.nan)
              = (acc ++ [v.map FVal.num])
                ++ List.replicate rest.length (List.replicate w FVal.nan)
            from by simp,
            show acc.length + 1 = (acc ++ [v.map FVal.num]).length from by simp,
            ih (acc ++ [v.map FVal.num]) (some (.vec v))]
          simp [vecRows, vecRow, hs, hv, lastFtr, fvals]

theorem runSyls_two_start (c : Syl → FtrOut) (n w : ℕ)
    (hc : ∀ s, ∃ v, c s = .vec v ∧ v.length = w) :
    ∀ (ss : List Syl) (i : ℕ) (f0 : Option FtrOut),
      n = i + ss.length → (∃ s ∈ ss, s.spect ≠ none) →
      runSyls c n i ss none f0
        = .ok (some (.two (List.replicate i (List.replicate w FVal.nan)
                ++ vecRows c w ss)),
               lastFtr c f0 ss) := by
  intro ss
  induction ss with
  | nil => intro i f0 _ h; simp at h
  | cons s rest ih =>
      intro i f0 hn h
      cases hs : s.spect with
      | none =>
          have hr : ∃ t ∈ rest, t.spect ≠ none := by
            rcases h with ⟨t, ht, hts⟩
            rcases List.mem_cons.mp ht with rfl | htr
            · exact absurd hs hts
            · exact ⟨t, htr, hts⟩
          simp only [runSyls, hs]
          rw [ih (i + 1) f0 (by simp only [List.length_cons] at hn; omega) hr]
          have : List.replicate (i + 1) (List.replicate w FVal.nan)
              = List.replicate i (List.replicate w FVal.nan)
                ++ [List.replicate w FVal.nan] :=
            List.replicate_succ' ..
          simp [this, lastFtr, hs, vecRows, vecRow]
      | some sp =>
          obtain ⟨v, hv, hw⟩ := hc s
          have hrep : List.replicate n (List.replicate v.length FVal.nan)
              = List.replicate i (List.replicate w FVal.nan)
                ++ List.replicate w FVal.nan
                  :: List.replicate rest.length (List.replicate w FVal.nan) := by
            rw [hn, hw]
            simp [List.replicate_add, List.replicate_succ]
          have hset : (List.replicate n (List.replicate v.length FVal.nan)).set i
                (v.map FVal.num)
              = (List.replicate i (List.replicate w FVal.nan)
                  ++ [v.map FVal.num])
                ++ List.replicate rest.length (List.replicate w FVal.nan) := by
            rw [hrep]
            have := set_append_len
              (List.replicate i (List.replicate w FVal.nan))
              (List.replicate w FVal.nan) (v.map FVal.num)
              (List.replicate rest.length (List.replicate w FVal.nan))
            simp only [List.length_replicate] at this
            rw [this, List.append_cons]
          simp only [runSyls, hs, hv, initCurr, hset]
          rw [show i + 1
              = (List.replicate i (List.replicate w FVal.nan)
                  ++ [v.map FVal.num]).length from by simp,
            runSyls_two_acc c n w hc rest _ (some (.vec v))]
          simp [vecRows, vecRow, hs, hv, lastFtr, fvals]

/-! ## Decomposition of the feature loop -/

theorem pieceW_scalar (f : Feature) (c : Syl → FtrOut)
    (hf : f.kind = .singleSyl c) (hsc : ∀ s, ∃ q, c s = .scalar q) :
    pieceW f = 1 := by
  obtain ⟨q0, h0⟩ := hsc default
  simp [pieceW, hf, h0, ftrWidth]

theorem pieceW_vec (f : Feature) (c : Syl → FtrOut) (w : ℕ)
    (hf : f.kind = .singleSyl c)
    (hvc : ∀ s, ∃ v, c s = .vec v ∧ v.length = w) :
    pieceW f = w := by
  obtain ⟨v0, h0, hw0⟩ := hvc default
  simp [pieceW, hf, h0, ftrWidth, hw0]

theorem rowPiece_single_scalar (P : FParams) (syls : List Syl) (i : ℕ)
    (f : Feature) (c : Syl → FtrOut) (hf : f.kind = .singleSyl c)
    (hsc : ∀ s, ∃ q, c s = .scalar q) :
    rowPiece P syls i f = [scalarCell c (syls.getD i default)] := by
  obtain ⟨q0, h0⟩ := hsc default
  cases hsp : (syls.getD i default).spect with
  | none =>
      simp only [rowPiece, hf, hsp, scalarCell, h0, ftrWidth]
      rfl
  | some sp =>
      obtain ⟨q, hq⟩ := hsc (syls.getD i default)
      simp only [rowPiece, hf, hsp, scalarCell, hq, fvals]

theorem rowPiece_single_vec (P : FParams) (syls : List Syl) (i : ℕ)
    (f : Feature) (c : Syl → FtrOut) (w : ℕ) (hf : f.kind = .singleSyl c)
    (hvc : ∀ s, ∃ v, c s = .vec v ∧ v.length = w) :
    rowPiece P syls i f = vecRow c w (syls.getD i default) := by
  obtain ⟨v0, h0, hw0⟩ := hvc default
  cases hsp : (syls.getD i default).spect with
  | none => simp only [rowPiece, hf, hsp, vecRow, h0, ftrWidth, hw0]
  | some sp => simp only [rowPiece, hf, hsp, vecRow]

theorem nnNames_cons_nn (f : Feature) (fs : List Feature)
    (h : isNNF f = true) : nnNames (f :: fs) = f.name :: nnNames fs := by
  simp [nnNames, List.filter_cons, h]

theorem nnNames_cons_not (f : Feature) (fs : List Feature)
    (h : isNNF f = false) : nnNames (f :: fs) = nnNames fs := by
  simp [nnNames, List.filter_cons, h]

/-- The value a neural-net feature records (a function of that
feature's own compute function and shared inputs only). -/
def nnVal (P : FParams)
    (c : Audio → ℚ → List Char → List ℤ → List ℤ → Tensor) : Tensor :=
  c P.rawAudio P.sampFreq (maskFilter P.mask P.labelsArr)
    (maskFilter P.mask P.onsetsHz) (maskFilter P.mask P.offsetsHz)

/-- The vector a multi-segment feature computes. -/
def mVals (P : FParams)
    (c : List ℤ → List ℤ → List Bool → List ℚ) : List ℚ :=
  c P.onsetsHz P.offsetsHz P.mask

theorem featureStep_nn (P : FParams) (i : ℕ) (f : Feature)
    (c : Audio → ℚ → List Char → List ℤ → List ℤ → Tensor)
    (hf : f.kind = .neuralNet c) (st : LoopState)
    (hfresh : f.name ∉ nnKeys st.nnDict) :
    featureStep P i f st = .ok { st with
      nnDict := some ((st.nnDict.getD []) ++ [(f.name, nnVal P c)]) } := by
  cases hd : st.nnDict with
  | none => simp [featureStep, hf, nnUpdate, hd, nnVal]
  | some l =>
      rw [hd] at hfresh
      simp only [nnKeys, Option.getD_some] at hfresh
      simp [featureStep, hf, nnUpdate, hd, nnVal,
        lookup_none_of_not_mem f.name l hfresh]

theorem postSingle_two_scalar (i0 : ℕ) (st : LoopState)
    (M0 : List (List FVal)) (q : ℚ) (u : List FVal)
    (hfa : st.featuresArr = some (.two M0)) (hftr : st.ftr = some (.scalar q))
    (hcur : st.currFeatureArr = some (.one u)) (hlen : M0.length = u.length) :
    postSingle i0 st = .ok { st with
      featureInds := st.featureInds ++ [i0]
      featuresArr :=
        some (.two (List.zipWith (· ++ ·) M0 (u.map (fun x => [x])))) } := by
  simp only [postSingle, hfa, hftr, hcur, toColumn, except_bind_ok,
    concatAxis1]
  rw [if_pos (by simp [hlen])]
  rfl

theorem postSingle_two_vec (i0 : ℕ) (st : LoopState)
    (M0 : List (List FVal)) (xs : List ℚ) (C : List (List FVal))
    (hfa : st.featuresArr = some (.two M0)) (hftr : st.ftr = some (.vec xs))
    (hcur : st.currFeatureArr = some (.two C)) (hlen : M0.length = C.length) :
    postSingle i0 st = .ok { st with
      featureInds := st.featureInds ++ List.replicate xs.length i0
      featuresArr := some (.two (List.zipWith (· ++ ·) M0 C)) } := by
  simp only [postSingle, hfa, hftr, hcur, concatAxis1]
  rw [if_pos hlen]
  rfl

theorem postSingle_first (i0 : ℕ) (st : LoopState) (fOut : FtrOut)
    (cfa : NDArr) (hfa : st.featuresArr = none) (hftr : st.ftr = some fOut)
    (hcur : st.currFeatureArr = some cfa) :
    postSingle i0 st = .ok { st with
      featureInds := st.featureInds ++ List.replicate (ftrWidth fOut) i0
      featuresArr := some cfa } := by
  cases fOut with
  | scalar q => simp only [postSingle, hfa, hftr, hcur, ftrWidth]
  | vec xs => simp only [postSingle, hfa, hftr, hcur, ftrWidth]

/-- Effect of one single-segment feature on a state whose matrix
accumulator is already 2-d with one row per syllable: the syllable
collection is built if absent (and only then), `feature_inds` grows
by the feature's width, and every row is extended by exactly that
feature's `rowPiece`. -/
theorem featureStep_single (P : FParams) (i0 : ℕ) (f : Feature)
    (c : Syl → FtrOut) (hf : f.kind = .singleSyl c) (st0 : LoopState)
    (M0 : List (List FVal))
    (hsyl0 : st0.syls = none ∨ st0.syls = some (sylsOf P))
    (hsh : ShapeOK c) (hcompL : ∃ s ∈ sylsOf P, s.spect ≠ none)
    (hM0 : st0.featuresArr = some (.two M0))
    (hlen : M0.length = (sylsOf P).length) :
    ∃ M1 cv fv, featureStep P i0 f st0 = .ok
        { st0 with
            featureInds := st0.featureInds ++ List.replicate (pieceW f) i0
            featuresArr := some (.two M1)
            syls := some (sylsOf P)
            sylsBuilds := buildsAfter st0.syls st0.sylsBuilds true
            currFeatureArr := cv
            ftr := fv } ∧
      M1.length = (sylsOf P).length ∧
      ∀ i, i < (sylsOf P).length →
        M1.getD i [] = M0.getD i [] ++ rowPiece P (sylsOf P) i f := by
  obtain ⟨sx, hsxm, hsxne, hlast⟩ :=
    lastFtr_of_exists c (sylsOf P) st0.ftr hcompL
  rcases shape_scalar_or_vec c hsh with hsc | ⟨w, hvc⟩
  · obtain ⟨qx, hqx⟩ := hsc sx
    have hrun : runSyls c (sylsOf P).length 0 (sylsOf P) none st0.ftr
        = .ok (some (.one (scalarCol c (sylsOf P))), some (.scalar qx)) := by
      have h0 := runSyls_one_start c (sylsOf P).length hsc (sylsOf P) 0
        st0.ftr (by simp) hcompL
      rw [hlast, hqx] at h0
      simpa using h0
    refine ⟨List.zipWith (· ++ ·) M0
        ((scalarCol c (sylsOf P)).map (fun x => [x])),
      some (.one (scalarCol c (sylsOf P))), some (.scalar qx), ?_, ?_, ?_⟩
    · rcases hsyl0 with hsy | hsy
      · simp only [featureStep, hf, hsy, hrun]
        rw [postSingle_two_scalar i0 _ M0 qx (scalarCol c (sylsOf P))
          (by simp [hM0]) rfl rfl (by simp [scalarCol, hlen])]
        simp [pieceW_scalar f c hf hsc, buildsAfter, hsy]
      · simp only [featureStep, hf, hsy, hrun]
        rw [postSingle_two_scalar i0 _ M0 qx (scalarCol c (sylsOf P))
          (by simp [hM0]) rfl rfl (by simp [scalarCol, hlen])]
        simp [pieceW_scalar f c hf hsc, buildsAfter, hsy]
    · simp [List.length_zipWith, hlen, scalarCol]
    · intro i hi
      rw [getD_zipWith (· ++ ·) [] [] [] M0 _ i (by omega)
          (by simpa [scalarCol] using hi),
        getD_map_of_lt (fun x => [x]) [] FVal.nan _ i
          (by simpa [scalarCol] using hi)]
      simp only [scalarCol]
      rw [getD_map_of_lt (scalarCell c) FVal.nan default _ i hi,
        rowPiece_single_scalar P (sylsOf P) i f c hf hsc]
  · obtain ⟨vx, hvx, hvxw⟩ := hvc sx
    have hrun : runSyls c (sylsOf P).length 0 (sylsOf P) none st0.ftr
        = .ok (some (.two (vecRows c w (sylsOf P))), some (.vec vx)) := by
      have h0 := runSyls_two_start c (sylsOf P).length w hvc (sylsOf P) 0
        st0.ftr (by simp) hcompL
      rw [hlast, hvx] at h0
      simpa using h0
    refine ⟨List.zipWith (· ++ ·) M0 (vecRows c w (sylsOf P)),
      some (.two (vecRows c w (sylsOf P))), some (.vec vx), ?_, ?_, ?_⟩
    · rcases hsyl0 with hsy | hsy
      · simp only [featureStep, hf, hsy, hrun]
        rw [postSingle_two_vec i0 _ M0 vx (vecRows c w (sylsOf P))
          (by simp [hM0]) rfl rfl (by simp [vecRows, hlen])]
        simp [pieceW_vec f c w hf hvc, buildsAfter, hsy, hvxw]
      · simp only [featureStep, hf, hsy, hrun]
        rw [postSingle_two_vec i0 _ M0 vx (vecRows c w (sylsOf P))
          (by simp [hM0]) rfl rfl (by simp [vecRows, hlen])]
        simp [pieceW_vec f c w hf hvc, buildsAfter, hsy, hvxw]
    · simp [List.length_zipWith, hlen, vecRows]
    · intro i hi
      rw [getD_zipWith (· ++ ·) [] [] [] M0 _ i (by omega)
          (by simpa [vecRows] using hi)]
      simp only [vecRows]
      rw [getD_map_of_lt (vecRow c w) [] default _ i hi,
        rowPiece_single_vec P (sylsOf P) i f c w hf hvc]

/-- Decomposition of the feature loop starting from a state whose
matrix accumulator is already 2-d with one row per syllable: the loop
succeeds, appends `pieceW` copies of each feature's list position to
`feature_inds`, extends each matrix row by exactly that feature's
`rowPiece`, builds the syllable collection at most once (only if a
single-segment feature occurs and it is not yet built), and appends
the neural-net feature names to the tensor dict. -/
theorem runFeatures_two (P : FParams) :
    ∀ (fs : List Feature) (i0 : ℕ) (st0 : LoopState)
      (M0 : List (List FVal)),
      (∀ f ∈ fs, GoodF P (sylsOf P).length f) →
      ((∃ s ∈ sylsOf P, s.spect ≠ none) ∨ (∀ f ∈ fs, isSingleF f = false)) →
      (st0.syls = none ∨ st0.syls = some (sylsOf P)) →
      st0.featuresArr = some (.two M0) →
      M0.length = (sylsOf P).length →
      (nnNames fs).Nodup →
      (∀ nm ∈ nnNames fs, nm ∉ nnKeys st0.nnDict) →
      ∃ st, runFeatures P i0 st0 fs = .ok st ∧
        st.featureInds = st0.featureInds ++ indsFrom i0 fs ∧
        (∃ M, st.featuresArr = some (.two M) ∧
          M.length = (sylsOf P).length ∧
          ∀ i, i < (sylsOf P).length →
            M.getD i [] = M0.getD i []
              ++ (fs.map (rowPiece P (sylsOf P) i)).flatten) ∧
        st.syls = sylsAfter P st0.syls (fs.any isSingleF) ∧
        st.sylsBuilds = buildsAfter st0.syls st0.sylsBuilds
          (fs.any isSingleF) ∧
        nnKeys st.nnDict = nnKeys st0.nnDict ++ nnNames fs := by
  intro fs
  induction fs with
  | nil =>
      intro i0 st0 M0 _ _ hsyl0 hM0 hlen _ _
      refine ⟨st0, rfl, by simp [indsFrom], ⟨M0, hM0, hlen, ?_⟩, ?_, ?_,
        by simp [nnNames]⟩
      · intro i _; simp
      · rcases hsyl0 with h | h <;> simp [sylsAfter, h]
      · rcases hsyl0 with h | h <;> simp [buildsAfter, h]
  | cons f fs ih =>
      intro i0 st0 M0 hgood hcomp hsyl0 hM0 hlen hnd hfresh
      have hgoodTail : ∀ g ∈ fs, GoodF P (sylsOf P).length g :=
        fun g hg => hgood g (List.mem_cons_of_mem _ hg)
      have hcompTail :
          (∃ s ∈ sylsOf P, s.spect ≠ none) ∨
            (∀ g ∈ fs, isSingleF g = false) := by
        rcases hcomp with h | h
        · exact Or.inl h
        · exact Or.inr fun g hg => h g (List.mem_cons_of_mem _ hg)
      cases hk : f.kind with
      | multiSyl c =>
          have hfns : isSingleF f = false := by simp [isSingleF, hk]
          have hfnn : isNNF f = false := by simp [isNNF, hk]
          have hgf : (c P.onsetsHz P.offsetsHz P.mask).length
              = (sylsOf P).length := by
            have := hgood f (List.mem_cons_self ..)
            simpa [GoodF, hk] using this
          have hstep : featureStep P i0 f st0 = .ok { st0 with
              currFeatureArr := some (.one ((mVals P c).map FVal.num))
              featureInds := st0.featureInds ++ [i0]
              featuresArr := some (.two (List.zipWith (· ++ ·) M0
                ((mVals P c).map (fun r => [FVal.num r])))) } := by
            simp only [featureStep, hk, hM0, concatAxis1]
            rw [if_pos (by simp [hgf, hlen])]
            rfl
          obtain ⟨st, hrun, hinds, ⟨M, hMfa, hMlen, hMrows⟩, hsyl, hbuilds,
              hkeys⟩ :=
            ih (i0 + 1)
              { st0 with
                  currFeatureArr := some (.one ((mVals P c).map FVal.num))
                  featureInds := st0.featureInds ++ [i0]
                  featuresArr := some (.two (List.zipWith (· ++ ·) M0
                    ((mVals P c).map (fun r => [FVal.num r])))) }
              (List.zipWith (· ++ ·) M0
                ((mVals P c).map (fun r => [FVal.num r])))
              hgoodTail hcompTail hsyl0 rfl
              (by simp [List.length_zipWith, hlen, mVals, hgf])
              (by rwa [nnNames_cons_not f fs hfnn] at hnd)
              (by
                intro nm hnm
                exact hfresh nm (by rwa [nnNames_cons_not f fs hfnn]))
          refine ⟨st, ?_, ?_, ⟨M, hMfa, hMlen, ?_⟩, ?_, ?_, ?_⟩
          · simp only [runFeatures, hstep, except_bind_ok]
            exact hrun
          · rw [hinds]
            simp [indsFrom, pieceW, hk]
          · intro i hi
            rw [hMrows i hi,
              getD_zipWith (· ++ ·) [] [] [] M0 _ i (by omega)
                (by simpa [mVals, hgf] using hi),
              getD_map_of_lt (fun r => [FVal.num r]) [] 0 (mVals P c) i
                (by simpa [mVals, hgf] using hi)]
            simp [rowPiece, hk, mVals, List.append_assoc]
          · rw [hsyl]
            simp [List.any_cons, hfns]
          · rw [hbuilds]
            simp [List.any_cons, hfns]
          · rw [hkeys, nnNames_cons_not f fs hfnn]
      | neuralNet c =>
          have hfns : isSingleF f = false := by simp [isSingleF, hk]
          have hfnnT : isNNF f = true := by simp [isNNF, hk]
          have hnamesC : nnNames (f :: fs) = f.name :: nnNames fs :=
            nnNames_cons_nn f fs hfnnT
          have hndC : f.name ∉ nnNames fs ∧ (nnNames fs).Nodup := by
            rw [hnamesC] at hnd
            exact List.nodup_cons.mp hnd
          have hfreshf : f.name ∉ nnKeys st0.nnDict :=
            hfresh f.name (by rw [hnamesC]; exact List.mem_cons_self ..)
          have hstep := featureStep_nn P i0 f c hk st0 hfreshf
          have hfresh2 : ∀ nm ∈ nnNames fs,
              nm ∉ nnKeys (some ((st0.nnDict.getD [])
                ++ [(f.name, nnVal P c)]) : Option (List (String × Tensor))) := by
            intro nm hnm hmem
            simp only [nnKeys, Option.getD_some, List.map_append,
              List.mem_append, List.map_cons, List.map_nil,
              List.mem_singleton] at hmem
            rcases hmem with hmem | hmem
            · exact hfresh nm
                (by rw [hnamesC]; exact List.mem_cons_of_mem _ hnm)
                (by simpa [nnKeys] using hmem)
            · exact hndC.1 (hmem ▸ hnm)
          obtain ⟨st, hrun, hinds, ⟨M, hMfa, hMlen, hMrows⟩, hsyl, hbuilds,
              hkeys⟩ :=
            ih (i0 + 1)
              { st0 with
                  nnDict := some ((st0.nnDict.getD [])
                    ++ [(f.name, nnVal P c)]) } M0
              hgoodTail hcompTail hsyl0 hM0 hlen hndC.2 hfresh2
          refine ⟨st, ?_, ?_, ⟨M, hMfa, hMlen, ?_⟩, ?_, ?_, ?_⟩
          · simp only [runFeatures, hstep, except_bind_ok]
            exact hrun
          · rw [hinds]
            simp [indsFrom, pieceW, hk]
          · intro i hi
            rw [hMrows i hi]
            simp [rowPiece, hk]
          · rw [hsyl]
            simp [List.any_cons, hfns]
          · rw [hbuilds]
            simp [List.any_cons, hfns]
          · rw [hkeys, hnamesC]
            simp [nnKeys]
      | singleSyl c =>
          have hfnsT : isSingleF f = true := by simp [isSingleF, hk]
          have hfnn : isNNF f = false := by simp [isNNF, hk]
          have hsh : ShapeOK c := by
            have := hgood f (List.mem_cons_self ..)
            simpa [GoodF, hk] using this
          have hcompL : ∃ s ∈ sylsOf P, s.spect ≠ none := by
            rcases hcomp with h | h
            · exact h
            · have := h f (List.mem_cons_self ..)
              rw [hfnsT] at this
              exact absurd this (by simp)
          obtain ⟨M1, cv, fv, hstep, hM1len, hM1rows⟩ :=
            featureStep_single P i0 f c hk st0 M0 hsyl0 hsh hcompL hM0 hlen
          obtain ⟨st, hrun, hinds, ⟨M, hMfa, hMlen, hMrows⟩, hsyl, hbuilds,
              hkeys⟩ :=
            ih (i0 + 1)
              { st0 with
                  featureInds :=
                    st0.featureInds ++ List.replicate (pieceW f) i0
                  featuresArr := some (.two M1)
                  syls := some (sylsOf P)
                  sylsBuilds := buildsAfter st0.syls st0.sylsBuilds true
                  currFeatureArr := cv
                  ftr := fv } M1
              hgoodTail hcompTail (Or.inr rfl) rfl hM1len
              (by rwa [nnNames_cons_not f fs hfnn] at hnd)
              (by
                intro nm hnm
                exact hfresh nm (by rwa [nnNames_cons_not f fs hfnn]))
          refine ⟨st, ?_, ?_, ⟨M, hMfa, hMlen, ?_⟩, ?_, ?_, ?_⟩
          · simp only [runFeatures, hstep, except_bind_ok]
            exact hrun
          · rw [hinds]
            simp [indsFrom, List.append_assoc]
          · intro i hi
            rw [hMrows i hi, hM1rows i hi]
            simp [List.append_assoc]
          · rw [hsyl]
            simp only [List.any_cons, hfnsT, Bool.true_or]
            rcases hsyl0 with hsy | hsy <;> simp [sylsAfter, hsy]
          · rw [hbuilds]
            simp only [List.any_cons, hfnsT, Bool.true_or]
            rcases hsyl0 with hsy | hsy <;> simp [buildsAfter, hsy]
          · rw [hkeys, nnNames_cons_not f fs hfnn]

/-- Effect of a vector-valued single-segment feature on a state with
no matrix accumulator yet: the 2-d per-feature accumulator becomes
the matrix. -/
theorem featureStep_single_first (P : FParams) (i0 : ℕ) (f : Feature)
    (c : Syl → FtrOut) (w : ℕ) (hf : f.kind = .singleSyl c)
    (st0 : LoopState)
    (hsyl0 : st0.syls = none ∨ st0.syls = some (sylsOf P))
    (hvc : ∀ s, ∃ v, c s = .vec v ∧ v.length = w)
    (hcompL : ∃ s ∈ sylsOf P, s.spect ≠ none)
    (hfa : st0.featuresArr = none) :
    ∃ cv fv, featureStep P i0 f st0 = .ok
        { st0 with
            featureInds := st0.featureInds ++ List.replicate (pieceW f) i0
            featuresArr := some (.two (vecRows c w (sylsOf P)))
            syls := some (sylsOf P)
            sylsBuilds := buildsAfter st0.syls st0.sylsBuilds true
            currFeatureArr := cv
            ftr := fv } := by
  obtain ⟨sx, hsxm, hsxne, hlast⟩ :=
    lastFtr_of_exists c (sylsOf P) st0.ftr hcompL
  obtain ⟨vx, hvx, hvxw⟩ := hvc sx
  have hrun : runSyls c (sylsOf P).length 0 (sylsOf P) none st0.ftr
      = .ok (some (.two (vecRows c w (sylsOf P))), some (.vec vx)) := by
    have h0 := runSyls_two_start c (sylsOf P).length w hvc (sylsOf P) 0
      st0.ftr (by simp) hcompL
    rw [hlast, hvx] at h0
    simpa using h0
  refine ⟨some (.two (vecRows c w (sylsOf P))), some (.vec vx), ?_⟩
  rcases hsyl0 with hsy | hsy
  · simp only [featureStep, hf, hsy, hrun]
    rw [postSingle_first i0 _ (.vec vx) _ (by simp [hfa]) rfl rfl]
    simp [pieceW_vec f c w hf hvc, buildsAfter, hsy, hvxw, ftrWidth]
  · simp only [featureStep, hf, hsy, hrun]
    rw [postSingle_first i0 _ (.vec vx) _ (by simp [hfa]) rfl rfl]
    simp [pieceW_vec f c w hf hvc, buildsAfter, hsy, hvxw, ftrWidth]

/-- Decomposition of the feature loop from a state with no matrix
accumulator (in particular the initial state), provided the first
matrix-contributing feature is not a scalar single-segment feature
(`FirstMatrixOk`), where the 1-d accumulator defect would otherwise
strike. -/
theorem runFeatures_first (P : FParams) :
    ∀ (fs : List Feature) (i0 : ℕ) (st0 : LoopState),
      (∀ f ∈ fs, GoodF P (sylsOf P).length f) →
      ((∃ s ∈ sylsOf P, s.spect ≠ none) ∨ (∀ f ∈ fs, isSingleF f = false)) →
      (st0.syls = none ∨ st0.syls = some (sylsOf P)) →
      st0.featuresArr = none →
      FirstMatrixOk fs →
      (nnNames fs).Nodup →
      (∀ nm ∈ nnNames fs, nm ∉ nnKeys st0.nnDict) →
      ∃ st, runFeatures P i0 st0 fs = .ok st ∧
        st.featureInds = st0.featureInds ++ indsFrom i0 fs ∧
        ((fs.any isMatrixF = false → st.featuresArr = none) ∧
         (fs.any isMatrixF = true → ∃ M, st.featuresArr = some (.two M) ∧
            M.length = (sylsOf P).length ∧
            ∀ i, i < (sylsOf P).length →
              M.getD i [] = (fs.map (rowPiece P (sylsOf P) i)).flatten)) ∧
        st.syls = sylsAfter P st0.syls (fs.any isSingleF) ∧
        st.sylsBuilds = buildsAfter st0.syls st0.sylsBuilds
          (fs.any isSingleF) ∧
        nnKeys st.nnDict = nnKeys st0.nnDict ++ nnNames fs := by
  intro fs
  induction fs with
  | nil =>
      intro i0 st0 _ _ hsyl0 hfa _ _ _
      refine ⟨st0, rfl, by simp [indsFrom],
        ⟨fun _ => hfa, fun h => by simp at h⟩, ?_, ?_, by simp [nnNames]⟩
      · rcases hsyl0 with h | h <;> simp [sylsAfter, h]
      · rcases hsyl0 with h | h <;> simp [buildsAfter, h]
  | cons f fs ih =>
      intro i0 st0 hgood hcomp hsyl0 hfa hfm hnd hfresh
      have hgoodTail : ∀ g ∈ fs, GoodF P (sylsOf P).length g :=
        fun g hg => hgood g (List.mem_cons_of_mem _ hg)
      have hcompTail :
          (∃ s ∈ sylsOf P, s.spect ≠ none) ∨
            (∀ g ∈ fs, isSingleF g = false) := by
        rcases hcomp with h | h
        · exact Or.inl h
        · exact Or.inr fun g hg => h g (List.mem_cons_of_mem _ hg)
      cases hk : f.kind with
      | neuralNet c =>
          have hfns : isSingleF f = false := by simp [isSingleF, hk]
          have hfnm : isMatrixF f = false := by
            simp [isMatrixF, isSingleF, isMultiF, hk]
          have hfnnT : isNNF f = true := by simp [isNNF, hk]
          have hnamesC : nnNames (f :: fs) = f.name :: nnNames fs :=
            nnNames_cons_nn f fs hfnnT
          have hndC : f.name ∉ nnNames fs ∧ (nnNames fs).Nodup := by
            rw [hnamesC] at hnd
            exact List.nodup_cons.mp hnd
          have hfreshf : f.name ∉ nnKeys st0.nnDict :=
            hfresh f.name (by rw [hnamesC]; exact List.mem_cons_self ..)
          have hstep := featureStep_nn P i0 f c hk st0 hfreshf
          have hfresh2 : ∀ nm ∈ nnNames fs,
              nm ∉ nnKeys (some ((st0.nnDict.getD [])
                ++ [(f.name, nnVal P c)]) : Option (List (String × Tensor))) := by
            intro nm hnm hmem
            simp only [nnKeys, Option.getD_some, List.map_append,
              List.mem_append, List.map_cons, List.map_nil,
              List.mem_singleton] at hmem
            rcases hmem with hmem | hmem
            · exact hfresh nm
                (by rw [hnamesC]; exact List.mem_cons_of_mem _ hnm)
                (by simpa [nnKeys] using hmem)
            · exact hndC.1 (hmem ▸ hnm)
          have hfmTail : FirstMatrixOk fs := by
            simpa [FirstMatrixOk, hk] using hfm
          obtain ⟨st, hrun, hinds, ⟨hnone, hsome⟩, hsyl, hbuilds, hkeys⟩ :=
            ih (i0 + 1)
              { st0 with
                  nnDict := some ((st0.nnDict.getD [])
                    ++ [(f.name, nnVal P c)]) }
              hgoodTail hcompTail hsyl0 hfa hfmTail hndC.2 hfresh2
          refine ⟨st, ?_, ?_, ⟨?_, ?_⟩, ?_, ?_, ?_⟩
          · simp only [runFeatures, hstep, except_bind_ok]
            exact hrun
          · rw [hinds]
            simp [indsFrom, pieceW, hk]
          · intro h
            exact hnone (by simpa [List.any_cons, hfnm] using h)
          · intro h
            obtain ⟨M, hMfa, hMlen, hMrows⟩ :=
              hsome (by simpa [List.any_cons, hfnm] using h)
            refine ⟨M, hMfa, hMlen, fun i hi => ?_⟩
            rw [hMrows i hi]
            simp [rowPiece, hk]
          · rw [hsyl]
            simp [List.any_cons, hfns]
          · rw [hbuilds]
            simp [List.any_cons, hfns]
          · rw [hkeys, hnamesC]
            simp [nnKeys]
      | multiSyl c =>
          have hfns : isSingleF f = false := by simp [isSingleF, hk]
          have hfnn : isNNF f = false := by simp [isNNF, hk]
          have hfmT : isMatrixF f = true := by
            simp [isMatrixF, isMultiF, hk]
          have hgf : (c P.onsetsHz P.offsetsHz P.mask).length
              = (sylsOf P).length := by
            have := hgood f (List.mem_cons_self ..)
            simpa [GoodF, hk] using this
          have hstep : featureStep P i0 f st0 = .ok { st0 with
              currFeatureArr := some (.one ((mVals P c).map FVal.num))
              featureInds := st0.featureInds ++ [i0]
              featuresArr := some (.two
                ((mVals P c).map (fun r => [FVal.num r]))) } := by
            simp only [featureStep, hk, hfa]
            rfl
          obtain ⟨st, hrun, hinds, ⟨M, hMfa, hMlen, hMrows⟩, hsyl, hbuilds,
              hkeys⟩ :=
            runFeatures_two P fs (i0 + 1)
              { st0 with
                  currFeatureArr := some (.one ((mVals P c).map FVal.num))
                  featureInds := st0.featureInds ++ [i0]
                  featuresArr := some (.two
                    ((mVals P c).map (fun r => [FVal.num r]))) }
              ((mVals P c).map (fun r => [FVal.num r]))
              hgoodTail hcompTail hsyl0 rfl
              (by simp [mVals, hgf])
              (by rwa [nnNames_cons_not f fs hfnn] at hnd)
              (by
                intro nm hnm
                exact hfresh nm (by rwa [nnNames_cons_not f fs hfnn]))
          refine ⟨st, ?_, ?_, ⟨?_, ?_⟩, ?_, ?_, ?_⟩
          · simp only [runFeatures, hstep, except_bind_ok]
            exact hrun
          · rw [hinds]
            simp [indsFrom, pieceW, hk]
          · intro h
            simp [List.any_cons, hfmT] at h
          · intro _
            refine ⟨M, hMfa, hMlen, fun i hi => ?_⟩
            rw [hMrows i hi,
              getD_map_of_lt (fun r => [FVal.num r]) [] 0 (mVals P c) i
                (by simpa [mVals, hgf] using hi)]
            simp [rowPiece, hk, mVals]
          · rw [hsyl]
            simp [List.any_cons, hfns]
          · rw [hbuilds]
            simp [List.any_cons, hfns]
          · rw [hkeys, nnNames_cons_not f fs hfnn]
      | singleSyl c =>
          have hfnsT : isSingleF f = true := by simp [isSingleF, hk]
          have hfnn : isNNF f = false := by simp [isNNF, hk]
          have hfmT : isMatrixF f = true := by
            simp [isMatrixF, isSingleF, hk]
          have hsh : ShapeOK c := by
            have := hgood f (List.mem_cons_self ..)
            simpa [GoodF, hk] using this
          have hcompL : ∃ s ∈ sylsOf P, s.spect ≠ none := by
            rcases hcomp with h | h
            · exact h
            · have := h f (List.mem_cons_self ..)
              rw [hfnsT] at this
              exact absurd this (by simp)
          obtain ⟨w, hvc⟩ :
              ∃ w, ∀ s, ∃ v, c s = .vec v ∧ v.length = w := by
            rcases shape_scalar_or_vec c hsh with hsc | hv
            · obtain ⟨q0, h0⟩ := hsc default
              have := hfm
              simp only [FirstMatrixOk, hk, h0, ftrShape] at this
              exact absurd this (by simp)
            · exact hv
          obtain ⟨cv, fv, hstep⟩ :=
            featureStep_single_first P i0 f c w hk st0 hsyl0 hvc hcompL hfa
          obtain ⟨st, hrun, hinds, ⟨M, hMfa, hMlen, hMrows⟩, hsyl, hbuilds,
              hkeys⟩ :=
            runFeatures_two P fs (i0 + 1)
              { st0 with
                  featureInds :=
                    st0.featureInds ++ List.replicate (pieceW f) i0
                  featuresArr := some (.two (vecRows c w (sylsOf P)))
                  syls := some (sylsOf P)
                  sylsBuilds := buildsAfter st0.syls st0.sylsBuilds true
                  currFeatureArr := cv
                  ftr := fv }
              (vecRows c w (sylsOf P))
              hgoodTail hcompTail (Or.inr rfl) rfl
              (by simp [vecRows])
              (by rwa [nnNames_cons_not f fs hfnn] at hnd)
              (by
                intro nm hnm
                exact hfresh nm (by rwa [nnNames_cons_not f fs hfnn]))
          refine ⟨st, ?_, ?_, ⟨?_, ?_⟩, ?_, ?_, ?_⟩
          · simp only [runFeatures, hstep, except_bind_ok]
            exact hrun
          · rw [hinds]
            simp [indsFrom, List.append_assoc]
          · intro h
            simp [List.any_cons, hfmT] at h
          · intro _
            refine ⟨M, hMfa, hMlen, fun i hi => ?_⟩
            rw [hMrows i hi]
            simp only [List.map_cons, List.flatten_cons]
            rw [rowPiece_single_vec P (sylsOf P) i f c w hk hvc]
            simp only [vecRows]
            rw [getD_map_of_lt (vecRow c w) [] default _ i hi]
          · rw [hsyl]
            simp only [List.any_cons, hfnsT, Bool.true_or]
            rcases hsyl0 with hsy | hsy <;> simp [sylsAfter, hsy]
          · rw [hbuilds]
            simp only [List.any_cons, hfnsT, Bool.true_or]
            rcases hsyl0 with hsy | hsy <;> simp [buildsAfter, hsy]
          · rw [hkeys, nnNames_cons_not f fs hfnn]

/-! ## Aggregator lemmas -/

@[simp]
theorem except_bind_assoc (x : Except ε α) (f : α → Except ε β)
    (g : β → Except ε γ) :
    ((x >>= f) >>= g) = (x >>= fun a => f a >>= g) := by
  cases x <;> rfl

theorem concatAxis0_error (a b : NDArr) (e : PyErr)
    (h : concatAxis0 a b = .error e) : e = .valueError := by
  cases a with
  | one va =>
      cases b with
      | one vb => simp [concatAxis0] at h
      | two mb =>
          simp only [concatAxis0, Except.error.injEq] at h
          exact h.symm
  | two ma =>
      cases b with
      | one vb =>
          simp only [concatAxis0, Except.error.injEq] at h
          exact h.symm
      | two mb =>
          simp only [concatAxis0] at h
          split at h
          · simp at h
          · simp only [Except.error.injEq] at h
            exact h.symm

/-- A file whose builder result is the no-match sentinel contributes
nothing to the aggregation state. -/
theorem fileStep_skip (env : Env) (ltu : String) (fl : List Feature)
    (st : AggState) (a : Annot) (w : Bool)
    (h : fromFile env a.filename a.labels a.onsetsHz a.offsetsHz ltu fl
      = .ok ⟨w, none⟩) :
    fileStep env ltu fl st a = .ok st := by
  simp [fileStep, h]

/-- Processing the first file that carries a feature matrix (and no
tensor dict) from the initial state: its column map becomes the
reference and all its data is accumulated. -/
theorem fileStep_first (env : Env) (ltu : String) (fl : List Feature)
    (a : Annot) (w : Bool) (d : ExtractDict) (fa : NDArr) (inds : List ℕ)
    (hA : fromFile env a.filename a.labels a.onsetsHz a.offsetsHz ltu fl
      = .ok ⟨w, some d⟩)
    (hd : d.features = some (fa, inds)) (hnn : d.nn = none) :
    fileStep env ltu fl initAggState a = .ok
      { allLabels := d.labels, allOnsetsHz := d.onsetsHz
        allOffsetsHz := d.offsetsHz, allSampfreqs := [d.sampFreq]
        songfiles := [a.filename]
        songfileIDs := List.replicate d.onsetsHz.length 0, counter := 1
        featureInds := some inds, featuresAll := some fa
        nnAll := none } := by
  simp [fileStep, hA, hd, hnn, initAggState]

/-- Processing a later file whose column map differs from the
reference raises the fatal `AssertionError` of line 314. -/
theorem fileStep_mismatch (env : Env) (ltu : String) (fl : List Feature)
    (st : AggState) (b : Annot) (w : Bool) (d : ExtractDict) (fb : NDArr)
    (indsb ref : List ℕ)
    (hB : fromFile env b.filename b.labels b.onsetsHz b.offsetsHz ltu fl
      = .ok ⟨w, some d⟩)
    (hd : d.features = some (fb, indsb))
    (href : st.featureInds = some ref) (hne : indsb ≠ ref) :
    fileStep env ltu fl st b = .error .assertionError := by
  simp [fileStep, hB, hd, href, hne]

/-- Processing a later file whose column map equals the reference:
the assertion passes and the file's data is appended; only the
row-concatenation can still fail. -/
theorem fileStep_second (env : Env) (ltu : String) (fl : List Feature)
    (st : AggState) (b : Annot) (w : Bool) (d : ExtractDict) (fb : NDArr)
    (indsb ref : List ℕ) (A : NDArr)
    (hB : fromFile env b.filename b.labels b.onsetsHz b.offsetsHz ltu fl
      = .ok ⟨w, some d⟩)
    (hd : d.features = some (fb, indsb)) (hnn : d.nn = none)
    (href : st.featureInds = some ref) (heq : indsb = ref)
    (hfa : st.featuresAll = some A) :
    fileStep env ltu fl st b = (concatAxis0 A fb >>= fun acc2 =>
      .ok { st with
              allLabels := st.allLabels ++ d.labels
              allOnsetsHz := st.allOnsetsHz ++ d.onsetsHz
              allOffsetsHz := st.allOffsetsHz ++ d.offsetsHz
              allSampfreqs := st.allSampfreqs ++ [d.sampFreq]
              songfiles := st.songfiles ++ [b.filename]
              songfileIDs := st.songfileIDs
                ++ List.replicate d.onsetsHz.length st.counter
              counter := st.counter + 1
              featuresAll := some acc2 }) := by
  simp only [fileStep, hB, except_bind_ok, hd, href, heq, if_pos, hfa, hnn]

/-! ## The per-file builder as a whole -/

@[simp]
theorem maskFilter_nil_mask (xs : List α) : maskFilter [] xs = [] := rfl

@[simp]
theorem maskFilter_nil (mask : List Bool) :
    maskFilter mask ([] : List α) = [] := by
  cases mask <;> rfl

@[simp]
theorem maskFilter_cons_true (mask : List Bool) (x : α) (xs : List α) :
    maskFilter (true :: mask) (x :: xs) = x :: maskFilter mask xs := by
  simp [maskFilter]

@[simp]
theorem maskFilter_cons_false (mask : List Bool) (x : α) (xs : List α) :
    maskFilter (false :: mask) (x :: xs) = maskFilter mask xs := by
  simp [maskFilter]

theorem maskFilter_true_len :
    ∀ (xs : List α) (n : ℕ), n = xs.length →
      maskFilter (List.replicate n true) xs = xs := by
  intro xs
  induction xs with
  | nil => intro n h; simp
  | cons x xs ih =>
      intro n h
      subst h
      simp only [List.length_cons, List.replicate_succ, maskFilter_cons_true]
      rw [ih xs.length rfl]

theorem maskFilter_map_pred (p : Char → Bool) :
    ∀ l : List Char, maskFilter (l.map p) l = l.filter p := by
  intro l
  induction l with
  | nil => rfl
  | cons x xs ih =>
      cases hp : p x <;>
        simp [List.filter_cons, hp, ih]

theorem fromFile_run (env : Env) (filename : String) (labels : LabelsInput)
    (onsetsHz offsetsHz : List ℤ) (ltu : String) (fl : List Feature)
    (mask : List Bool) (st : LoopState)
    (hm : computeMask labels ltu = .ok mask) (ha : mask.any id = true)
    (hr : runFeatures (paramsOf env filename labels onsetsHz offsetsHz mask)
      0 initLoopState fl = .ok st) :
    fromFile env filename labels onsetsHz offsetsHz ltu fl = .ok
      { warned := false
        dict := some
          { labels := maskFilter mask (labelsChars labels)
            onsetsHz := maskFilter mask onsetsHz
            offsetsHz := maskFilter mask offsetsHz
            features := st.featuresArr.map (fun fa => (fa, st.featureInds))
            nn := st.nnDict
            sampFreq := (env.decode filename).2 } } := by
  simp only [fromFile, hm, except_bind_ok, ha, if_true, hr]

theorem fromFile_noMatch (env : Env) (filename : String)
    (labels : LabelsInput) (onsetsHz offsetsHz : List ℤ) (ltu : String)
    (fl : List Feature) (mask : List Bool)
    (hm : computeMask labels ltu = .ok mask) (ha : mask.any id = false) :
    fromFile env filename labels onsetsHz offsetsHz ltu fl
      = .ok { warned := true, dict := none } := by
  simp only [fromFile, hm, except_bind_ok, ha]
  rfl

theorem fromFile_err (env : Env) (filename : String) (labels : LabelsInput)
    (onsetsHz offsetsHz : List ℤ) (ltu : String) (fl : List Feature)
    (mask : List Bool) (e : PyErr)
    (hm : computeMask labels ltu = .ok mask) (ha : mask.any id = true)
    (hr : runFeatures (paramsOf env filename labels onsetsHz offsetsHz mask)
      0 initLoopState fl = .error e) :
    fromFile env filename labels onsetsHz offsetsHz ltu fl = .error e := by
  simp only [fromFile, hm, except_bind_ok, ha, if_true, hr, except_bind_err]

/-! ## Concrete collaborators used in closed runs -/

/-- A decoder/`make_syls` pair in which every segment's spectrogram
is computable. -/
def tEnv : Env :=
  { decode := fun _ => ([1, 2, 3], 32000)
    mkSyls := fun _ _ ls _ _ => ls.map (fun _ => ⟨some [[1]]⟩) }

/-- A `make_syls` for which no segment can be spectrogrammed. -/
def badEnv : Env :=
  { decode := fun _ => ([1], 32000)
    mkSyls := fun _ _ ls _ _ => ls.map (fun _ => ⟨none⟩) }

/-- A `make_syls` in which exactly the segment with onset 0 fails to
spectrogram. -/
def mixEnv : Env :=
  { decode := fun _ => ([1], 32000)
    mkSyls := fun _ _ _ ons _ =>
      ons.map (fun o => if o = 0 then ⟨none⟩ else ⟨some [[1]]⟩) }

/-- A scalar single-segment feature (constant value 5). -/
def ampF : Feature := ⟨"amplitude", .singleSyl (fun _ => .scalar 5)⟩

/-- A width-3 vector single-segment feature. -/
def vec3F : Feature := ⟨"spectral_vec3", .singleSyl (fun _ => .vec [1, 2, 3])⟩

/-- A multi-segment feature: per-segment durations of the retained
segments, computed from the boundary arrays and label mask alone. -/
def durF : Feature :=
  ⟨"duration", .multiSyl (fun ons offs mask =>
    maskFilter mask (List.zipWith (fun o t => ((t - o : ℤ) : ℚ)) ons offs))⟩

/-- A neural-net (tensor) input feature: one tensor row per retained
segment. -/
def nnF : Feature :=
  ⟨"flatwindow", .neuralNet (fun _ _ ls _ _ => ls.map (fun _ => [1, 2]))⟩

/-- Inversion of a successful `_from_file` run that returned a dict:
the mask matched, no warning was reported, and every field of the
dict is determined by the mask and the feature-loop result. -/
theorem fromFile_ok_inv (env : Env) (filename : String)
    (labels : LabelsInput) (onsetsHz offsetsHz : List ℤ) (ltu : String)
    (fl : List Feature) (mask : List Bool) (w : Bool) (d : ExtractDict)
    (hm : computeMask labels ltu = .ok mask)
    (h : fromFile env filename labels onsetsHz offsetsHz ltu fl
      = .ok ⟨w, some d⟩) :
    mask.any id = true ∧ w = false ∧
    d.labels = maskFilter mask (labelsChars labels) ∧
    d.onsetsHz = maskFilter mask onsetsHz ∧
    d.offsetsHz = maskFilter mask offsetsHz ∧
    d.sampFreq = (env.decode filename).2 ∧
    ∃ st, runFeatures (paramsOf env filename labels onsetsHz offsetsHz mask)
        0 initLoopState fl = .ok st ∧
      d.features = st.featuresArr.map (fun fa => (fa, st.featureInds)) ∧
      d.nn = st.nnDict := by
  cases hany : mask.any id with
  | false =>
      rw [fromFile_noMatch env filename labels onsetsHz offsetsHz ltu fl
        mask hm hany] at h
      exact absurd h (by simp)
  | true =>
      simp only [fromFile, hm, except_bind_ok] at h
      rw [if_pos hany] at h
      cases hrr : runFeatures (paramsOf env filename labels onsetsHz
          offsetsHz mask) 0 initLoopState fl with
      | error e =>
          rw [hrr] at h
          exact absurd h (by simp)
      | ok st =>
          rw [hrr] at h
          simp only [except_bind_ok, Except.ok.injEq] at h
          have hw := congrArg FromFileOut.warned h
          have hdict := congrArg FromFileOut.dict h
          simp only at hw hdict
          have hd := Option.some.inj hdict
          refine ⟨rfl, hw.symm, ?_, ?_, ?_, ?_, st, rfl, ?_, ?_⟩ <;>
            rw [← hd]

/-! ## The claims -/

/-- C1: column assembly order.  The claim promises that for every
feature list a scalar feature contributes one column and a width-w
vector feature w columns, in declaration order.  The code violates
this: a scalar single-segment feature processed before any other
matrix feature leaves `features_arr` 1-dimensional (line 583 assigns
the 1-d per-feature array directly), so the next feature's
`np.concatenate(..., axis=1)` raises `ValueError` — contradicting the
function's own docstring ("features_arr : ndarray, m-by-n matrix").
First conjunct: the failing run.  Second conjunct: when the first
matrix feature is not a scalar single-segment feature, the claimed
layout does hold — the claim's own example (a multi-segment
`duration`, a width-3 vector, then a scalar) yields 5 columns with
column map [0, 1, 1, 1, 2]. -/
theorem c1_column_assembly :
    fromFile tEnv "a.wav" (.arr ['a']) [0] [10] "all" [ampF, durF]
      = .error .valueError ∧
    fromFile tEnv "a.wav" (.arr ['a', 'b']) [0, 5] [10, 20] "all"
        [durF, vec3F, ampF]
      = .ok { warned := false
              dict := some
                { labels := ['a', 'b'], onsetsHz := [0, 5]
                  offsetsHz := [10, 20]
                  features := some (.two
                    [[.num 10, .num 1, .num 2, .num 3, .num 5],
                     [.num 15, .num 1, .num 2, .num 3, .num 5]],
                    [0, 1, 1, 1, 2])
                  nn := none, sampFreq := 32000 } } :=
  ⟨rfl, rfl⟩

/-- C3: label filtering.  With `labels_to_use = 'all'` every segment
is retained (labels, onsets and offsets pass through unchanged);
otherwise exactly the segments whose label belongs to the set are
retained, in original order (the labels are the order-preserving
filter, and onsets/offsets are indexed by the same mask).  The closed
conjuncts check the spec's two examples: labels "aabc" with set "ab"
retain the segments labelled a, a, b; labels "ccc" with set "ab"
yield the no-match sentinel. -/
theorem c3_label_filtering
    (env : Env) (filename : String) (l : List Char)
    (onsetsHz offsetsHz : List ℤ) (ltu : String) (fl : List Feature) :
    ((ltu = "all" → ∀ (w : Bool) (d : ExtractDict),
        fromFile env filename (.arr l) onsetsHz offsetsHz ltu fl
          = .ok ⟨w, some d⟩ →
        d.labels = l ∧
        (l.length = onsetsHz.length → d.onsetsHz = onsetsHz) ∧
        (l.length = offsetsHz.length → d.offsetsHz = offsetsHz)) ∧
     (ltu ≠ "all" → ∀ (w : Bool) (d : ExtractDict),
        fromFile env filename (.arr l) onsetsHz offsetsHz ltu fl
          = .ok ⟨w, some d⟩ →
        d.labels = l.filter (fun ch => decide (ch ∈ ltu.toList)) ∧
        d.onsetsHz = maskFilter (l.map (fun ch => decide (ch ∈ ltu.toList)))
          onsetsHz ∧
        d.offsetsHz = maskFilter (l.map (fun ch => decide (ch ∈ ltu.toList)))
          offsetsHz)) ∧
    fromFile tEnv "f" (.arr ['a', 'a', 'b', 'c']) [0, 1, 2, 3] [4, 5, 6, 7]
        "ab" []
      = .ok { warned := false,
              dict := some
                { labels := ['a', 'a', 'b'], onsetsHz := [0, 1, 2],
                  offsetsHz := [4, 5, 6], features := none, nn := none,
                  sampFreq := 32000 } } ∧
    fromFile tEnv "f" (.arr ['c', 'c', 'c']) [0, 1, 2] [4, 5, 6] "ab" []
      = .ok { warned := true, dict := none } := by
  refine ⟨⟨?_, ?_⟩, rfl, rfl⟩
  · intro hall w d h
    have hm : computeMask (.arr l) ltu
        = .ok (List.replicate l.length true) := by
      simp [computeMask, hall]
    obtain ⟨_, _, hlab, hons, hoffs, _, _⟩ :=
      fromFile_ok_inv env filename (.arr l) onsetsHz offsetsHz ltu fl _
        w d hm h
    refine ⟨?_, ?_, ?_⟩
    · rw [hlab]
      exact maskFilter_true_len l l.length rfl
    · intro hlen
      rw [hons]
      exact maskFilter_true_len onsetsHz l.length hlen
    · intro hlen
      rw [hoffs]
      exact maskFilter_true_len offsetsHz l.length hlen
  · intro hne w d h
    have hm : computeMask (.arr l) ltu
        = .ok (l.map (fun ch => decide (ch ∈ ltu.toList))) := by
      simp [computeMask, hne]
    obtain ⟨_, _, hlab, hons, hoffs, _, _⟩ :=
      fromFile_ok_inv env filename (.arr l) onsetsHz offsetsHz ltu fl _
        w d hm h
    exact ⟨by rw [hlab]; exact maskFilter_map_pred _ l, hons, hoffs⟩

/-- C10: the label mask is computed before the string-to-array
conversion of `labels`.  A plain-string `labels` with
`labels_to_use = 'all'` hits `labels.shape` and fails with
`AttributeError` instead of retaining all segments, while with any
other label set the string is accepted and behaves exactly like the
equivalent array argument (the mask iterates its characters; the
conversion happens afterwards). -/
theorem c10_string_labels
    (env : Env) (filename : String) (s : List Char)
    (onsetsHz offsetsHz : List ℤ) (fl : List Feature) :
    fromFile env filename (.str s) onsetsHz offsetsHz "all" fl
      = .error .attributeError ∧
    (∀ ltu : String, ltu ≠ "all" →
      fromFile env filename (.str s) onsetsHz offsetsHz ltu fl
        = fromFile env filename (.arr s) onsetsHz offsetsHz ltu fl) := by
  constructor
  · have hm : computeMask (.str s) "all" = .error .attributeError := by
      simp [computeMask]
    simp only [fromFile, hm, except_bind_err]
  · intro ltu hne
    have hm1 : computeMask (.str s) ltu
        = .ok (s.map (fun ch => decide (ch ∈ ltu.toList))) := by
      simp [computeMask, hne]
    have hm2 : computeMask (.arr s) ltu
        = .ok (s.map (fun ch => decide (ch ∈ ltu.toList))) := by
      simp [computeMask, hne]
    simp only [fromFile, hm1, hm2, except_bind_ok]
    rfl

/-- C4: a file in which no segment matches the label filter makes the
builder report the warning-level condition and return the no-match
sentinel as a normal value (never an exception), and the aggregator
skips such a file entirely: the aggregation state is unchanged and
the run over the remaining files is as if the file were absent. -/
theorem c4_no_match_skip (env : Env) (ltu : String) (fl : List Feature) :
    (∀ (filename : String) (labels : LabelsInput)
       (onsetsHz offsetsHz : List ℤ) (mask : List Bool),
       computeMask labels ltu = .ok mask → mask.any id = false →
       fromFile env filename labels onsetsHz offsetsHz ltu fl
         = .ok { warned := true, dict := none }) ∧
    (∀ (a : Annot) (rest : List Annot) (w : Bool),
       fromFile env a.filename a.labels a.onsetsHz a.offsetsHz ltu fl
         = .ok ⟨w, none⟩ →
       (∀ st, fileStep env ltu fl st a = .ok st) ∧
       extract env ltu fl (a :: rest) = extract env ltu fl rest) := by
  constructor
  · intro filename labels onsetsHz offsetsHz mask hm ha
    exact fromFile_noMatch env filename labels onsetsHz offsetsHz ltu fl
      mask hm ha
  · intro a rest w h
    refine ⟨fun st => fileStep_skip env ltu fl st a w h, ?_⟩
    simp only [extract, runFiles,
      fileStep_skip env ltu fl initAggState a w h, except_bind_ok]

/-- C7: sample-count derivation.  With a scalar feature matrix the
sample count is its row count (regardless of any tensor dict); with
no matrix and exactly one named tensor it is that tensor's leading
dimension; with no matrix and two or more tensor names it is the
fatal ambiguity error. -/
theorem c7_sample_count :
    (∀ (fa : NDArr) (nn : Option (List (String × Tensor))),
       deriveNumSamples (some fa) nn = .ok (some (ndRows fa))) ∧
    (∀ p : String × Tensor,
       deriveNumSamples none (some [p]) = .ok (some p.2.length)) ∧
    (∀ d : List (String × Tensor), 2 ≤ d.length →
       deriveNumSamples none (some d) = .error .valueError) := by
  refine ⟨fun fa nn => rfl, fun p => rfl, ?_⟩
  intro d hd
  match d with
  | [] => simp at hd
  | [p] => simp at hd
  | p :: q :: rest => rfl

/-- C2: cross-file column-map consistency.  The first processed file
carrying a feature matrix makes its column map the reference; a later
file whose map is not element-wise equal aborts the whole run with
the fatal `AssertionError` of line 314, while element-wise equal maps
never trigger it (any remaining failure can only be the
`ValueError` of the row concatenation, never the assertion). -/
theorem c2_column_map_consistency
    (env : Env) (ltu : String) (fl : List Feature) (a b : Annot)
    (wa wb : Bool) (da db : ExtractDict) (faA fbB : NDArr)
    (indsA indsB : List ℕ)
    (hA : fromFile env a.filename a.labels a.onsetsHz a.offsetsHz ltu fl
      = .ok ⟨wa, some da⟩)
    (hdA : da.features = some (faA, indsA)) (hnnA : da.nn = none)
    (hB : fromFile env b.filename b.labels b.onsetsHz b.offsetsHz ltu fl
      = .ok ⟨wb, some db⟩)
    (hdB : db.features = some (fbB, indsB)) (hnnB : db.nn = none) :
    (indsA ≠ indsB →
      extract env ltu fl [a, b] = .error .assertionError) ∧
    (indsA = indsB →
      ∀ e, extract env ltu fl [a, b] = .error e → e = .valueError) := by
  have hst1 := fileStep_first env ltu fl a wa da faA indsA hA hdA hnnA
  constructor
  · intro hne
    have hstep2 := fileStep_mismatch env ltu fl
      { allLabels := da.labels, allOnsetsHz := da.onsetsHz,
        allOffsetsHz := da.offsetsHz, allSampfreqs := [da.sampFreq],
        songfiles := [a.filename],
        songfileIDs := List.replicate da.onsetsHz.length 0, counter := 1,
        featureInds := some indsA, featuresAll := some faA, nnAll := none }
      b wb db fbB indsB indsA hB hdB rfl (Ne.symm hne)
    simp only [extract, runFiles, hst1, except_bind_ok, hstep2,
      except_bind_err]
  · intro heq e he
    have hstep2 := fileStep_second env ltu fl
      { allLabels := da.labels, allOnsetsHz := da.onsetsHz,
        allOffsetsHz := da.offsetsHz, allSampfreqs := [da.sampFreq],
        songfiles := [a.filename],
        songfileIDs := List.replicate da.onsetsHz.length 0, counter := 1,
        featureInds := some indsA, featuresAll := some faA, nnAll := none }
      b wb db fbB indsB indsA faA hB hdB hnnB rfl heq.symm rfl
    simp only [extract, runFiles, hst1, except_bind_ok, hstep2] at he
    cases hc : concatAxis0 faA fbB with
    | error e2 =>
        rw [hc] at he
        simp only [except_bind_err, Except.error.injEq] at he
        rw [← he]
        exact concatAxis0_error faA fbB e2 hc
    | ok acc2 =>
        rw [hc] at he
        simp [deriveNumSamples] at he

/-- C6: lockstep accumulation.  Aggregating a file with 3 retained
segments and a 3-by-2 matrix followed by a file with 2 retained
segments, a 2-by-2 matrix and the identical column map yields a
5-by-2 matrix (row concatenation in file order), 5 labels, 5 onsets,
per-row file identifiers `[0, 0, 0, 1, 1]` resolving to the file
names `[A, A, A, B, B]`, and sample count 5. -/
theorem c6_lockstep_accumulation
    (env : Env) (ltu : String) (fl : List Feature) (a b : Annot)
    (wa wb : Bool) (da db : ExtractDict)
    (MA MB : List (List FVal)) (indsR : List ℕ)
    (hA : fromFile env a.filename a.labels a.onsetsHz a.offsetsHz ltu fl
      = .ok ⟨wa, some da⟩)
    (hdA : da.features = some (.two MA, indsR)) (hnnA : da.nn = none)
    (hB : fromFile env b.filename b.labels b.onsetsHz b.offsetsHz ltu fl
      = .ok ⟨wb, some db⟩)
    (hdB : db.features = some (.two MB, indsR)) (hnnB : db.nn = none)
    (hMA : MA.length = 3) (hMB : MB.length = 2)
    (hwA : (MA.headD []).length = 2) (hwB : (MB.headD []).length = 2)
    (hlabA : da.labels.length = 3) (honA : da.onsetsHz.length = 3)
    (hlabB : db.labels.length = 2) (honB : db.onsetsHz.length = 2) :
    ∃ s, extract env ltu fl [a, b] = .ok s ∧
      s.features = some (.two (MA ++ MB)) ∧
      (MA ++ MB).length = 5 ∧
      s.labels = da.labels ++ db.labels ∧ s.labels.length = 5 ∧
      s.onsetsHz = da.onsetsHz ++ db.onsetsHz ∧
      s.songfiles = [a.filename, b.filename] ∧
      s.songfileIDs = List.replicate 3 0 ++ List.replicate 2 1 ∧
      s.songfileIDs.map (fun k => s.songfiles.getD k a.filename)
        = [a.filename, a.filename, a.filename, b.filename, b.filename] ∧
      s.numSamples = some 5 := by
  have hst1 := fileStep_first env ltu fl a wa da (.two MA) indsR hA hdA hnnA
  have hconc : concatAxis0 (.two MA) (.two MB) = .ok (.two (MA ++ MB)) := by
    simp only [concatAxis0]
    rw [if_pos (by rw [hwA, hwB])]
  have hstep2 := fileStep_second env ltu fl
    { allLabels := da.labels, allOnsetsHz := da.onsetsHz,
      allOffsetsHz := da.offsetsHz, allSampfreqs := [da.sampFreq],
      songfiles := [a.filename],
      songfileIDs := List.replicate da.onsetsHz.length 0, counter := 1,
      featureInds := some indsR, featuresAll := some (.two MA),
      nnAll := none }
    b wb db (.two MB) indsR indsR (.two MA) hB hdB hnnB rfl rfl rfl
  refine ⟨{ labels := da.labels ++ db.labels,
            onsetsHz := da.onsetsHz ++ db.onsetsHz,
            offsetsHz := da.offsetsHz ++ db.offsetsHz,
            sampfreqs := [da.sampFreq, db.sampFreq],
            songfiles := [a.filename, b.filename],
            songfileIDs := List.replicate da.onsetsHz.length 0
              ++ List.replicate db.onsetsHz.length 1,
            features := some (.two (MA ++ MB)),
            featureIndsRef := some indsR,
            nn := none, numSamples := some (MA ++ MB).length },
    ?_, rfl, ?_, rfl, ?_, rfl, rfl, ?_, ?_, ?_⟩
  · simp only [extract, runFiles, hst1, except_bind_ok, hstep2, hconc,
      deriveNumSamples, ndRows]
    rfl
  · simp [hMA, hMB]
  · simp [hlabA, hlabB]
  · rw [honA, honB]
  · rw [honA, honB]
    simp [List.map_replicate, List.getD]
  · simp [hMA, hMB]

theorem runFeatures_append (P : FParams) :
    ∀ (xs ys : List Feature) (i0 : ℕ) (st0 : LoopState),
      runFeatures P i0 st0 (xs ++ ys)
        = (runFeatures P i0 st0 xs >>= fun st =>
            runFeatures P (i0 + xs.length) st ys) := by
  intro xs
  induction xs with
  | nil => intro ys i0 st0; simp [runFeatures]
  | cons f xt ih =>
      intro ys i0 st0
      simp only [List.cons_append, runFeatures, except_bind_assoc]
      cases hs : featureStep P i0 f st0 with
      | error e => simp
      | ok st1 =>
          simp only [except_bind_ok]
          have hap : xt.append ys = xt ++ ys := rfl
          rw [hap, ih]
          have hidx : i0 + (f :: xt).length = i0 + 1 + xt.length := by
            simp only [List.length_cons]
            omega
          rw [hidx]

theorem nnNames_append (xs ys : List Feature) :
    nnNames (xs ++ ys) = nnNames xs ++ nnNames ys := by
  simp [nnNames, List.filter_append]

theorem isNNF_false_of_single (f : Feature) (h : isSingleF f = true) :
    isNNF f = false := by
  cases hk : f.kind with
  | singleSyl c => simp [isNNF, hk]
  | multiSyl c => simp [isNNF, hk]
  | neuralNet c => simp [isSingleF, hk] at h

theorem firstMatrixOk_noSingle :
    ∀ fs : List Feature, (∀ f ∈ fs, isSingleF f = false) →
      FirstMatrixOk fs := by
  intro fs
  induction fs with
  | nil => intro _; trivial
  | cons f ft ih =>
      intro h
      cases hk : f.kind with
      | singleSyl c =>
          have := h f (List.mem_cons_self ..)
          simp [isSingleF, hk] at this
      | multiSyl c => simp [FirstMatrixOk, hk]
      | neuralNet c =>
          simp only [FirstMatrixOk, hk]
          exact ih fun g hg => h g (List.mem_cons_of_mem _ hg)

theorem firstMatrixOk_prefix_single :
    ∀ (pre : List Feature) (f : Feature) (post : List Feature),
      FirstMatrixOk (pre ++ f :: post) → FirstMatrixOk (pre ++ [f]) := by
  intro pre
  induction pre with
  | nil =>
      intro f post h
      cases hk : f.kind with
      | singleSyl c =>
          simp only [List.nil_append, FirstMatrixOk, hk] at h ⊢
          exact h
      | multiSyl c => simp [FirstMatrixOk, hk]
      | neuralNet c =>
          simp only [List.nil_append, FirstMatrixOk, hk]
  | cons g gt ih =>
      intro f post h
      cases hk : g.kind with
      | singleSyl c =>
          simp only [List.cons_append, FirstMatrixOk, hk] at h ⊢
          exact h
      | multiSyl c => simp [FirstMatrixOk, hk]
      | neuralNet c =>
          simp only [List.cons_append, FirstMatrixOk, hk] at h ⊢
          exact ih f post h

theorem rowPiece_nan_of_fail (P : FParams) (syls : List Syl) (i : ℕ)
    (f : Feature) (hf : isSingleF f = true)
    (hsp : (syls.getD i default).spect = none) :
    rowPiece P syls i f = List.replicate (pieceW f) FVal.nan := by
  cases hk : f.kind with
  | singleSyl c => simp only [rowPiece, hk, hsp, pieceW]
  | multiSyl c => simp [isSingleF, hk] at hf
  | neuralNet c => simp [isSingleF, hk] at hf

theorem initLoopState_fresh (fs : List Feature) :
    ∀ nm ∈ nnNames fs, nm ∉ nnKeys initLoopState.nnDict := by
  intro nm _ hmem
  simp [nnKeys, initLoopState] at hmem

/-- C5 counterexample: the claim promises that a segment whose
spectrogram cannot be computed keeps its row with nan entries and the
file is never aborted.  When every retained segment fails to
spectrogram, the per-feature accumulator and the local `ftr` are
never assigned, and the post-loop code of lines 562-583 reads them:
`NameError`, aborting the file. -/
theorem c5_all_fail_aborts :
    fromFile badEnv "f" (.arr ['a']) [0] [10] "all" [ampF]
      = .error .nameError := rfl

/-- C5 (amended): provided at least one retained segment's
spectrogram is computable (and the feature list is well-shaped with
its first matrix feature not a scalar single-segment one, cf. C1),
the file is not aborted, the matrix keeps one row per retained
segment, and a segment whose spectrogram cannot be computed
contributes nan in the cells of every single-segment feature while
still occupying its row. -/
theorem c5_missing_segment_rows
    (env : Env) (filename : String) (labels : LabelsInput)
    (onsetsHz offsetsHz : List ℤ) (ltu : String) (fl : List Feature)
    (mask : List Bool)
    (hm : computeMask labels ltu = .ok mask)
    (ha : mask.any id = true)
    (hgood : ∀ f ∈ fl,
      GoodF (paramsOf env filename labels onsetsHz offsetsHz mask)
        (sylsOf (paramsOf env filename labels onsetsHz offsetsHz mask)).length
        f)
    (hcomp : ∃ s ∈ sylsOf (paramsOf env filename labels onsetsHz offsetsHz
      mask), s.spect ≠ none)
    (hfm : FirstMatrixOk fl)
    (hnd : (nnNames fl).Nodup)
    (hcount : (sylsOf (paramsOf env filename labels onsetsHz offsetsHz
        mask)).length
      = (maskFilter mask (labelsChars labels)).length) :
    ∃ d, fromFile env filename labels onsetsHz offsetsHz ltu fl
        = .ok ⟨false, some d⟩ ∧
      (fl.any isMatrixF = true →
        ∃ M, d.features = some (.two M, indsFrom 0 fl) ∧
          M.length = (maskFilter mask (labelsChars labels)).length ∧
          (∀ i, i < (sylsOf (paramsOf env filename labels onsetsHz offsetsHz
              mask)).length →
            M.getD i []
              = (fl.map (rowPiece
                  (paramsOf env filename labels onsetsHz offsetsHz mask)
                  (sylsOf (paramsOf env filename labels onsetsHz offsetsHz
                    mask)) i)).flatten) ∧
          (∀ i, i < (sylsOf (paramsOf env filename labels onsetsHz offsetsHz
              mask)).length →
            ((sylsOf (paramsOf env filename labels onsetsHz offsetsHz
              mask)).getD i default).spect = none →
            ∀ f ∈ fl, isSingleF f = true →
              rowPiece (paramsOf env filename labels onsetsHz offsetsHz mask)
                  (sylsOf (paramsOf env filename labels onsetsHz offsetsHz
                    mask)) i f
                = List.replicate (pieceW f) FVal.nan)) := by
  obtain ⟨st, hrun, hinds, ⟨hnone, hsome⟩, _, _, _⟩ :=
    runFeatures_first (paramsOf env filename labels onsetsHz offsetsHz mask)
      fl 0 initLoopState hgood (Or.inl hcomp) (Or.inl rfl) rfl hfm hnd
      (initLoopState_fresh fl)
  refine ⟨_, fromFile_run env filename labels onsetsHz offsetsHz ltu fl
    mask st hm ha hrun, ?_⟩
  intro hmat
  obtain ⟨M, hMfa, hMlen, hMrows⟩ := hsome hmat
  refine ⟨M, ?_, ?_, hMrows, ?_⟩
  · simp [hMfa, hinds, initLoopState]
  · rw [hMlen, hcount]
  · intro i _ hsp f _ hsing
    exact rowPiece_nan_of_fail _ _ i f hsing hsp

/-- C8: determinism and feature independence.  The embedded builder
is a pure function (first conjunct: two invocations on the same
inputs coincide, which holds by construction since the embedding has
no hidden state).  The substantial part is the second conjunct:
on a successful run the feature matrix decomposes row-wise into
per-feature pieces, where each `rowPiece` is computed from that one
feature's compute function and the shared per-file inputs alone — no
feature's cells depend on the processing of any other feature. -/
theorem c8_determinism_independence
    (env : Env) (filename : String) (labels : LabelsInput)
    (onsetsHz offsetsHz : List ℤ) (ltu : String) (fl : List Feature)
    (mask : List Bool)
    (hm : computeMask labels ltu = .ok mask)
    (ha : mask.any id = true)
    (hgood : ∀ f ∈ fl,
      GoodF (paramsOf env filename labels onsetsHz offsetsHz mask)
        (sylsOf (paramsOf env filename labels onsetsHz offsetsHz mask)).length
        f)
    (hcomp : (∃ s ∈ sylsOf (paramsOf env filename labels onsetsHz offsetsHz
        mask), s.spect ≠ none) ∨ (∀ f ∈ fl, isSingleF f = false))
    (hfm : FirstMatrixOk fl)
    (hnd : (nnNames fl).Nodup) :
    (fromFile env filename labels onsetsHz offsetsHz ltu fl
      = fromFile env filename labels onsetsHz offsetsHz ltu fl) ∧
    ∃ d, fromFile env filename labels onsetsHz offsetsHz ltu fl
        = .ok ⟨false, some d⟩ ∧
      (fl.any isMatrixF = true →
        ∃ M, d.features = some (.two M, indsFrom 0 fl) ∧
          M.length = (sylsOf (paramsOf env filename labels onsetsHz
            offsetsHz mask)).length ∧
          ∀ i, i < (sylsOf (paramsOf env filename labels onsetsHz offsetsHz
              mask)).length →
            M.getD i []
              = (fl.map (rowPiece
                  (paramsOf env filename labels onsetsHz offsetsHz mask)
                  (sylsOf (paramsOf env filename labels onsetsHz offsetsHz
                    mask)) i)).flatten) := by
  obtain ⟨st, hrun, hinds, ⟨hnone, hsome⟩, _, _, _⟩ :=
    runFeatures_first (paramsOf env filename labels onsetsHz offsetsHz mask)
      fl 0 initLoopState hgood hcomp (Or.inl rfl) rfl hfm hnd
      (initLoopState_fresh fl)
  refine ⟨rfl, _, fromFile_run env filename labels onsetsHz offsetsHz ltu fl
    mask st hm ha hrun, ?_⟩
  intro hmat
  obtain ⟨M, hMfa, hMlen, hMrows⟩ := hsome hmat
  exact ⟨M, by simp [hMfa, hinds, initLoopState], hMlen, hMrows⟩

/-- C9: the per-segment syllable collection is built lazily, at most
once, and shared.  (a) A feature list without single-segment features
never builds it.  (b) In general a successful run builds it exactly
once when a single-segment feature occurs and never otherwise, and
the state afterwards holds the one shared collection `sylsOf P`.
(c) For any split of the feature list at its first single-segment
feature, the loop over the prefix has built nothing, the loop through
that feature has built it exactly once, and the whole run is the
composition of the two parts. -/
theorem c9_lazy_shared_spectrograms (P : FParams) (fl : List Feature)
    (hgood : ∀ f ∈ fl, GoodF P (sylsOf P).length f)
    (hcomp : (∃ s ∈ sylsOf P, s.spect ≠ none) ∨
      (∀ f ∈ fl, isSingleF f = false))
    (hfm : FirstMatrixOk fl)
    (hnd : (nnNames fl).Nodup) :
    ((∀ f ∈ fl, isSingleF f = false) →
      ∃ st, runFeatures P 0 initLoopState fl = .ok st ∧
        st.sylsBuilds = 0 ∧ st.syls = none) ∧
    (∃ st, runFeatures P 0 initLoopState fl = .ok st ∧
      st.sylsBuilds = (if fl.any isSingleF then 1 else 0) ∧
      st.syls = (if fl.any isSingleF then some (sylsOf P) else none)) ∧
    (∀ (pre : List Feature) (f : Feature) (post : List Feature),
      fl = pre ++ f :: post → (∀ g ∈ pre, isSingleF g = false) →
      isSingleF f = true →
      (∃ st1, runFeatures P 0 initLoopState pre = .ok st1 ∧
        st1.sylsBuilds = 0 ∧ st1.syls = none) ∧
      (∃ st2, runFeatures P 0 initLoopState (pre ++ [f]) = .ok st2 ∧
        st2.sylsBuilds = 1 ∧ st2.syls = some (sylsOf P)) ∧
      runFeatures P 0 initLoopState fl
        = (runFeatures P 0 initLoopState (pre ++ [f]) >>= fun st =>
            runFeatures P (pre.length + 1) st post)) := by
  refine ⟨?_, ?_, ?_⟩
  · intro hns
    obtain ⟨st, hrun, _, _, hsyl, hbuilds, _⟩ :=
      runFeatures_first P fl 0 initLoopState hgood (Or.inr hns)
        (Or.inl rfl) rfl hfm hnd (initLoopState_fresh fl)
    have hany : fl.any isSingleF = false := by
      rw [List.any_eq_false]
      intro f hf
      rw [hns f hf]
      simp
    rw [hany] at hsyl hbuilds
    exact ⟨st, hrun, by simpa [initLoopState, buildsAfter] using hbuilds,
      by simpa [initLoopState, sylsAfter] using hsyl⟩
  · obtain ⟨st, hrun, _, _, hsyl, hbuilds, _⟩ :=
      runFeatures_first P fl 0 initLoopState hgood hcomp
        (Or.inl rfl) rfl hfm hnd (initLoopState_fresh fl)
    refine ⟨st, hrun, ?_, ?_⟩
    · rw [hbuilds]
      cases hb : fl.any isSingleF <;>
        simp [initLoopState, buildsAfter, hb]
    · rw [hsyl]
      cases hb : fl.any isSingleF <;>
        simp [initLoopState, sylsAfter, hb]
  · intro pre f post hfl hpre hsing
    have hmemf : f ∈ fl := by
      rw [hfl]
      exact List.mem_append_right _ (List.mem_cons_self ..)
    have hcompEx : ∃ s ∈ sylsOf P, s.spect ≠ none := by
      rcases hcomp with h | h
      · exact h
      · have := h f hmemf
        rw [hsing] at this
        exact absurd this (by simp)
    have hndParts := hnd
    rw [hfl, nnNames_append] at hndParts
    refine ⟨?_, ?_, ?_⟩
    · obtain ⟨st1, hrun1, _, _, hsyl1, hbuilds1, _⟩ :=
        runFeatures_first P pre 0 initLoopState
          (fun g hg => hgood g (by rw [hfl]; exact List.mem_append_left _ hg))
          (Or.inr hpre) (Or.inl rfl) rfl
          (firstMatrixOk_noSingle pre hpre)
          (List.Nodup.of_append_left hndParts)
          (initLoopState_fresh pre)
      have hany : pre.any isSingleF = false := by
        rw [List.any_eq_false]
        intro g hg
        rw [hpre g hg]
        simp
      rw [hany] at hsyl1 hbuilds1
      exact ⟨st1, hrun1,
        by simpa [initLoopState, buildsAfter] using hbuilds1,
        by simpa [initLoopState, sylsAfter] using hsyl1⟩
    · have hmem2 : ∀ g ∈ pre ++ [f], g ∈ fl := by
        intro g hg
        rw [hfl]
        rcases List.mem_append.mp hg with h | h
        · exact List.mem_append_left _ h
        · simp only [List.mem_singleton] at h
          subst h
          exact List.mem_append_right _ (List.mem_cons_self ..)
      have hnames2 : nnNames (pre ++ [f]) = nnNames pre := by
        rw [nnNames_append]
        have : nnNames [f] = [] := by
          simp [nnNames, List.filter_cons, isNNF_false_of_single f hsing]
        rw [this, List.append_nil]
      obtain ⟨st2, hrun2, _, _, hsyl2, hbuilds2, _⟩ :=
        runFeatures_first P (pre ++ [f]) 0 initLoopState
          (fun g hg => hgood g (hmem2 g hg))
          (Or.inl hcompEx) (Or.inl rfl) rfl
          (firstMatrixOk_prefix_single pre f post (hfl ▸ hfm))
          (by rw [hnames2]; exact List.Nodup.of_append_left hndParts)
          (initLoopState_fresh _)
      have hany : (pre ++ [f]).any isSingleF = true := by
        rw [List.any_eq_true]
        exact ⟨f, List.mem_append_right _ (List.mem_cons_self ..), hsing⟩
      rw [hany] at hsyl2 hbuilds2
      exact ⟨st2, hrun2,
        by simpa [initLoopState, buildsAfter] using hbuilds2,
        by simpa [initLoopState, sylsAfter] using hsyl2⟩
    · have hsplit : fl = (pre ++ [f]) ++ post := by
        rw [hfl, List.append_assoc]
        rfl
      rw [hsplit, runFeatures_append]
      have : (pre ++ [f]).length = pre.length + 1 := by simp
      rw [this]
      simp

/-! ## Witness instances -/

/-- A single-segment feature whose vector width follows the
spectrogram's row count, so files with different segments produce
different column maps. -/
def vwF : Feature :=
  ⟨"vw", .singleSyl (fun s => .vec (List.replicate (s.spect.getD []).length 1))⟩

/-- Collaborators under which a segment's spectrogram has one row
per onset sample, so `vwF`'s width differs between files. -/
def c2Env : Env :=
  { decode := fun _ => ([1], 8)
    mkSyls := fun _ _ _ ons _ =>
      ons.map (fun o => ⟨some (List.replicate o.toNat [1])⟩) }

def c2a : Annot := ⟨"A", .arr ['a'], [1], [2]⟩

def c2b : Annot := ⟨"B", .arr ['a'], [2], [3]⟩

def c3d : ExtractDict := ⟨['a'], [0], [2], none, none, 32000⟩

def c4a : Annot := ⟨"f", .arr ['c'], [0], [1]⟩

def c6a : Annot := ⟨"A", .arr ['a', 'a', 'a'], [0, 1, 2], [10, 11, 12]⟩

def c6b : Annot := ⟨"B", .arr ['a', 'a'], [0, 1], [10, 11]⟩

/-- Concrete per-file inputs for the laziness witness. -/
def p9 : FParams :=
  { rawAudio := [1], sampFreq := 32000, mkSyls := tEnv.mkSyls
    labelsArr := ['a'], onsetsHz := [0], offsetsHz := [10]
    mask := [true] }

theorem c2_witness :
    extract c2Env "all" [vwF] [c2a, c2b] = .error .assertionError :=
  (c2_column_map_consistency c2Env "all" [vwF] c2a c2b false false
    ⟨['a'], [1], [2], some (.two [[.num 1]], [0]), none, 8⟩
    ⟨['a'], [2], [3], some (.two [[.num 1, .num 1]], [0, 0]), none, 8⟩
    (.two [[.num 1]]) (.two [[.num 1, .num 1]]) [0] [0, 0]
    rfl rfl rfl rfl rfl rfl).1 (by decide)

theorem c3_witness :
    ("ab" : String) ≠ "all" ∧
    (c3d.labels = ['a', 'c'].filter (fun ch => decide (ch ∈ ("ab" : String).toList)) ∧
     c3d.onsetsHz = maskFilter
       (['a', 'c'].map (fun ch => decide (ch ∈ ("ab" : String).toList))) [0, 1] ∧
     c3d.offsetsHz = maskFilter
       (['a', 'c'].map (fun ch => decide (ch ∈ ("ab" : String).toList))) [2, 3]) :=
  ⟨by decide,
   (c3_label_filtering tEnv "f" ['a', 'c'] [0, 1] [2, 3] "ab" []).1.2
     (by decide) false c3d rfl⟩

theorem c4_witness :
    fromFile tEnv "f" (.arr ['c']) [0] [1] "ab" []
      = .ok { warned := true, dict := none } ∧
    fileStep tEnv "ab" [] initAggState c4a = .ok initAggState ∧
    extract tEnv "ab" [] [c4a] = extract tEnv "ab" [] [] :=
  ⟨(c4_no_match_skip tEnv "ab" []).1 "f" (.arr ['c']) [0] [1] [false]
     rfl rfl,
   ((c4_no_match_skip tEnv "ab" []).2 c4a [] true rfl).1 initAggState,
   ((c4_no_match_skip tEnv "ab" []).2 c4a [] true rfl).2⟩

theorem c5_witness :
    ∃ d, fromFile mixEnv "f" (.arr ['a', 'b']) [0, 5] [10, 20] "all"
        [durF, vec3F, ampF] = .ok ⟨false, some d⟩ :=
  (c5_missing_segment_rows mixEnv "f" (.arr ['a', 'b']) [0, 5] [10, 20]
    "all" [durF, vec3F, ampF] [true, true] rfl rfl
    (fun g hg => by
      simp only [List.mem_cons, List.not_mem_nil, or_false] at hg
      rcases hg with rfl | rfl | rfl
      · exact rfl
      · exact fun s => rfl
      · exact fun s => rfl)
    ⟨⟨some [[1]]⟩, by decide, by decide⟩
    trivial (by decide) rfl).elim
    (fun d hd => ⟨d, hd.1⟩)

theorem c6_witness :
    ∃ s, extract tEnv "all" [durF, ampF] [c6a, c6b] = .ok s ∧
      s.numSamples = some 5 ∧
      s.songfileIDs = List.replicate 3 0 ++ List.replicate 2 1 :=
  (c6_lockstep_accumulation tEnv "all" [durF, ampF] c6a c6b false false
    ⟨['a', 'a', 'a'], [0, 1, 2], [10, 11, 12],
      some (.two [[.num 10, .num 5], [.num 10, .num 5], [.num 10, .num 5]],
        [0, 1]), none, 32000⟩
    ⟨['a', 'a'], [0, 1], [10, 11],
      some (.two [[.num 10, .num 5], [.num 10, .num 5]], [0, 1]),
      none, 32000⟩
    [[.num 10, .num 5], [.num 10, .num 5], [.num 10, .num 5]]
    [[.num 10, .num 5], [.num 10, .num 5]] [0, 1]
    rfl rfl rfl rfl rfl rfl (by decide) (by decide) (by decide) (by decide)
    (by decide) (by decide) (by decide) (by decide)).elim
    (fun s hs => ⟨s, hs.1, hs.2.2.2.2.2.2.2.2.2, hs.2.2.2.2.2.2.2.1⟩)

theorem c7_witness :
    deriveNumSamples (some (.two [[FVal.num 1]])) none
      = .ok (some 1) ∧
    deriveNumSamples none (some [("spect", [[1]])]) = .ok (some 1) ∧
    (2 ≤ ([("a", [[1]]), ("b", [[1]])] : List (String × Tensor)).length ∧
      deriveNumSamples none (some [("a", [[1]]), ("b", [[1]])])
        = .error .valueError) :=
  ⟨c7_sample_count.1 (.two [[FVal.num 1]]) none,
   c7_sample_count.2.1 ("spect", [[1]]),
   by decide,
   c7_sample_count.2.2 [("a", [[1]]), ("b", [[1]])] (by decide)⟩

theorem c8_witness :
    ∃ d, fromFile tEnv "f" (.arr ['a', 'b']) [0, 5] [10, 20] "all"
        [durF, vec3F, ampF] = .ok ⟨false, some d⟩ :=
  ((c8_determinism_independence tEnv "f" (.arr ['a', 'b']) [0, 5] [10, 20]
    "all" [durF, vec3F, ampF] [true, true] rfl rfl
    (fun g hg => by
      simp only [List.mem_cons, List.not_mem_nil, or_false] at hg
      rcases hg with rfl | rfl | rfl
      · exact rfl
      · exact fun s => rfl
      · exact fun s => rfl)
    (Or.inl ⟨⟨some [[1]]⟩, by decide, by decide⟩)
    trivial (by decide)).2).elim
    (fun d hd => ⟨d, hd.1⟩)

theorem c9_witness :
    ∃ st, runFeatures p9 0 initLoopState [durF, ampF] = .ok st ∧
      st.sylsBuilds = (if ([durF, ampF]).any isSingleF then 1 else 0) ∧
      st.syls = (if ([durF, ampF]).any isSingleF then some (sylsOf p9)
        else none) :=
  (c9_lazy_shared_spectrograms p9 [durF, ampF]
    (fun g hg => by
      simp only [List.mem_cons, List.not_mem_nil, or_false] at hg
      rcases hg with rfl | rfl
      · exact rfl
      · exact fun s => rfl)
    (Or.inl ⟨⟨some [[1]]⟩, by decide, by decide⟩)
    trivial (by decide)).2.1

theorem c10_witness :
    fromFile tEnv "f" (.str ['a']) [0] [10] "all" []
      = .error .attributeError ∧
    ("ab" : String) ≠ "all" ∧
    fromFile tEnv "f" (.str ['a']) [0] [10] "ab" []
      = fromFile tEnv "f" (.arr ['a']) [0] [10] "ab" [] :=
  ⟨(c10_string_labels tEnv "f" ['a'] [0] [10] []).1,
   by decide,
   (c10_string_labels tEnv "f" ['a'] [0] [10] []).2 "ab" (by decide)⟩

end HVC
